import Mathlib

/-!
Verification model of the streaming chat-completion decoder of
`huggingface/huggingface-vscode-chat` (file `src/provider.ts`, supported by
`src/utils.ts`).  The decoder turns an incrementally delivered SSE-like text
stream into an ordered list of output events (text, thinking, tool calls).

The embedding is a direct translation of the TypeScript source:

* strings are modelled as `List Char` (`Str`), chunks of the incoming stream
  as `Str` values (the byte decoding layer `TextDecoder` is outside the
  model, which works at text level);
* `JSON.parse` is modelled by an executable fuel-based JSON parser `jsonParse`
  matching the strict JSON grammar accepted by JavaScript, and
  `JSON.stringify` by `canonGo` (numbers keep the lexeme they were parsed
  from, a faithful rendering for the canonical integer/decimal lexemes that
  occur on this wire format);
* the provider's mutable per-session fields become the record `CoreState`;
  `Math.random`-based fresh ids become a deterministic counter `rng`, so a
  run of the decoder is a pure function from chunks to events;
* `progress.report` calls become elements of the returned event list.  Tool
  call events additionally record which dedup identity (if any) the inline
  text path used when emitting them - metadata that does not influence the
  computation, only the statements about it.
-/

set_option maxRecDepth 40000

/-- Characters of a JavaScript string. -/
abbrev Str := List Char

/-- Test whether `pat` occurs at the start of `s` (cf. `String.prototype.startsWith`). -/
def listStartsWith : Str → Str → Bool
  | _, [] => true
  | [], _ :: _ => false
  | c :: s, p :: ps => c = p && listStartsWith s ps

/-- Auxiliary scan for `subIndex`, carrying the current position. -/
def subIndexGo (pat : Str) : Nat → Str → Option Nat
  | i, [] => if listStartsWith [] pat then some i else none
  | i, c :: rest =>
    if listStartsWith (c :: rest) pat then some i else subIndexGo pat (i + 1) rest

/-- First index at which `pat` occurs in `s`, as in `String.prototype.indexOf`
(`none` plays the role of the `-1` result). -/
def subIndex (s pat : Str) : Option Nat := subIndexGo pat 0 s

/-- Test whether `pat` occurs at the end of `s` (cf. `String.prototype.endsWith`). -/
def listEndsWith (s pat : Str) : Bool :=
  if pat.length ≤ s.length then s.drop (s.length - pat.length) = pat else false

/-- Decimal digit characters of a natural number (used for synthesized ids). -/
def natChars (n : Nat) : Str := (Nat.repr n).data

/-- JavaScript values as far as the decoder observes them: the results of
`JSON.parse` on a frame.  Numbers keep their source lexeme. -/
inductive JVal where
  | jnull
  | jbool (b : Bool)
  | jnum (lexeme : Str)
  | jstr (s : Str)
  | jarr (elems : List JVal)
  | jobj (fields : List (Str × JVal))

/-- JSON whitespace as skipped by `JSON.parse` (space, tab, line feed, carriage return). -/
def isJsonWs (c : Char) : Bool := c = ' ' || c = '\t' || c = '\n' || c = '\r'

/-- Drop leading JSON whitespace. -/
def skipWsL : Str → Str
  | [] => []
  | c :: r => if isJsonWs c then skipWsL r else c :: r

/-- Value of a hexadecimal digit, if any, computed on the code point:
48-57 are the decimal digits, 97-102 the lowercase and 65-70 the uppercase
hex letters. -/
def hexVal (c : Char) : Option Nat :=
  let n := c.toNat
  if 48 ≤ n ∧ n < 58 then some (n - 48)
  else if 97 ≤ n ∧ n < 103 then some (n - 87)
  else if 65 ≤ n ∧ n < 71 then some (n - 55)
  else none

/-- Combine four hex digits into a code unit. -/
def hex4 (a b c d : Char) : Option Nat :=
  match hexVal a, hexVal b, hexVal c, hexVal d with
  | some va, some vb, some vc, some vd => some (((va * 16 + vb) * 16 + vc) * 16 + vd)
  | _, _, _, _ => none

/-- Fuel-indexed worker for `parseJStr`; every recursive call consumes at
least one input character, so a fuel of the input length suffices. -/
def parseJStrF : Nat → Str → Option (Str × Str)
  | 0, _ => none
  | _, [] => none
  | _ + 1, '"' :: r => some ([], r)
  | fuel + 1, '\\' :: e =>
    (match e with
     | '"' :: r => (parseJStrF fuel r).map (fun p => ('"' :: p.1, p.2))
     | '\\' :: r => (parseJStrF fuel r).map (fun p => ('\\' :: p.1, p.2))
     | '/' :: r => (parseJStrF fuel r).map (fun p => ('/' :: p.1, p.2))
     | 'b' :: r => (parseJStrF fuel r).map (fun p => ('\x08' :: p.1, p.2))
     | 'f' :: r => (parseJStrF fuel r).map (fun p => ('\x0c' :: p.1, p.2))
     | 'n' :: r => (parseJStrF fuel r).map (fun p => ('\n' :: p.1, p.2))
     | 'r' :: r => (parseJStrF fuel r).map (fun p => ('\r' :: p.1, p.2))
     | 't' :: r => (parseJStrF fuel r).map (fun p => ('\t' :: p.1, p.2))
     | 'u' :: h1 :: h2 :: h3 :: h4 :: r =>
       (match hex4 h1 h2 h3 h4 with
        | none => none
        | some n =>
          if n < 0xd800 ∨ n ≥ 0xe000 then
            (parseJStrF fuel r).map (fun p => (Char.ofNat n :: p.1, p.2))
          else
            match r with
            | '\\' :: 'u' :: g1 :: g2 :: g3 :: g4 :: r2 =>
              (match hex4 g1 g2 g3 g4 with
               | some m =>
                 if 0xdc00 ≤ m ∧ m < 0xe000 ∧ n < 0xdc00 then
                   (parseJStrF fuel r2).map (fun p =>
                     (Char.ofNat (0x10000 + (n - 0xd800) * 0x400 + (m - 0xdc00)) :: p.1, p.2))
                 else (parseJStrF fuel r).map (fun p => (Char.ofNat 0xfffd :: p.1, p.2))
               | none => (parseJStrF fuel r).map (fun p => (Char.ofNat 0xfffd :: p.1, p.2)))
            | _ => (parseJStrF fuel r).map (fun p => (Char.ofNat 0xfffd :: p.1, p.2)))
     | _ => none)
  | fuel + 1, c :: r =>
    if c.toNat < 0x20 then none
    else (parseJStrF fuel r).map (fun p => (c :: p.1, p.2))

/-- Parse the body of a JSON string literal (after the opening quote), as
`JSON.parse` does: the standard escapes, `\uXXXX` code units with surrogate
pairs, and a rejection of raw control characters.  A lone surrogate - which a
JavaScript string can hold but a Lean `Char` cannot - is modelled as U+FFFD;
no input in this development exercises that corner. -/
def parseJStr (s : Str) : Option (Str × Str) := parseJStrF (s.length + 1) s

/-- Leading run of decimal digits. -/
def takeDigits : Str → Str × Str
  | [] => ([], [])
  | c :: r =>
    if c.isDigit then
      let p := takeDigits r
      (c :: p.1, p.2)
    else ([], c :: r)

/-- Parse the digits of an exponent after the `e`/`E` marker, completing the
lexeme started in `pre`. -/
def parseExpDigits (pre : Str) (e : Char) (r4 : Str) : Option (Str × Str) :=
  let es : Str × Str :=
    match r4 with
    | '+' :: r5 => (['+'], r5)
    | '-' :: r5 => (['-'], r5)
    | _ => ([], r4)
  match takeDigits es.2 with
  | ([], _) => none
  | (xs, r6) => some (pre ++ e :: es.1 ++ xs, r6)

/-- Parse an optional exponent part following the lexeme `pre`. -/
def parseExpTail (pre : Str) (s : Str) : Option (Str × Str) :=
  match s with
  | 'e' :: r4 => parseExpDigits pre 'e' r4
  | 'E' :: r4 => parseExpDigits pre 'E' r4
  | _ => some (pre, s)

/-- Parse a JSON number lexeme, following the strict grammar of `JSON.parse`
(optional minus, integer part with no leading zero, optional fraction,
optional exponent).  The lexeme itself is returned. -/
def parseJNum (s : Str) : Option (Str × Str) :=
  let sgn : Str × Str := match s with | '-' :: r => (['-'], r) | _ => ([], s)
  match takeDigits sgn.2 with
  | ([], _) => none
  | (d :: ds, r1) =>
    if d = '0' ∧ ds ≠ [] then none
    else
      let intPart := sgn.1 ++ d :: ds
      match r1 with
      | '.' :: r2 =>
        (match takeDigits r2 with
         | ([], _) => none
         | (fs, r3) => parseExpTail (intPart ++ '.' :: fs) r3)
      | _ => parseExpTail intPart r1

/-- Insert a key/value pair into an object's field list with the semantics of
a JavaScript object literal built by `JSON.parse`: a repeated key keeps its
first position but takes the latest value. -/
def objIns (fs : List (Str × JVal)) (k : Str) (v : JVal) : List (Str × JVal) :=
  match fs with
  | [] => [(k, v)]
  | (k0, v0) :: rest =>
    if k0 = k then (k0, v) :: rest else (k0, v0) :: objIns rest k v

/-- Jobs of the JSON parsing machine: a value, the tail of an array, or the
tail of an object.  A single fuel-indexed function keeps the recursion
structural (and hence kernel-reducible). -/
inductive PJob where
  | val
  | elems (acc : List JVal)
  | fields (acc : List (Str × JVal))

/-- Single step machine for JSON parsing; `fuel` dominates the nesting. -/
def pstep : Nat → PJob → Str → Option (JVal × Str)
  | 0, _, _ => none
  | Nat.succ fuel, PJob.val, s0 =>
    match skipWsL s0 with
    | 'n' :: 'u' :: 'l' :: 'l' :: r => some (JVal.jnull, r)
    | 't' :: 'r' :: 'u' :: 'e' :: r => some (JVal.jbool true, r)
    | 'f' :: 'a' :: 'l' :: 's' :: 'e' :: r => some (JVal.jbool false, r)
    | '"' :: r => (parseJStr r).map (fun p => (JVal.jstr p.1, p.2))
    | '[' :: r =>
      (match skipWsL r with
       | ']' :: r2 => some (JVal.jarr [], r2)
       | _ => pstep fuel (PJob.elems []) r)
    | '\x7b' :: r =>
      (match skipWsL r with
       | '\x7d' :: r2 => some (JVal.jobj [], r2)
       | _ => pstep fuel (PJob.fields []) r)
    | other => (parseJNum other).map (fun p => (JVal.jnum p.1, p.2))
  | Nat.succ fuel, PJob.elems acc, s0 =>
    match pstep fuel PJob.val s0 with
    | none => none
    | some (v, s1) =>
      match skipWsL s1 with
      | ',' :: s2 => pstep fuel (PJob.elems (acc ++ [v])) s2
      | ']' :: s2 => some (JVal.jarr (acc ++ [v]), s2)
      | _ => none
  | Nat.succ fuel, PJob.fields acc, s0 =>
    match skipWsL s0 with
    | '"' :: r =>
      (match parseJStr r with
       | none => none
       | some (k, s1) =>
         match skipWsL s1 with
         | ':' :: s2 =>
           (match pstep fuel PJob.val s2 with
            | none => none
            | some (v, s3) =>
              match skipWsL s3 with
              | ',' :: s4 => pstep fuel (PJob.fields (objIns acc k v)) s4
              | '\x7d' :: s4 => some (JVal.jobj (objIns acc k v), s4)
              | _ => none)
         | _ => none)
    | _ => none

/-- Model of `JSON.parse`: `none` stands for a thrown `SyntaxError`. -/
def jsonParse (s : Str) : Option JVal :=
  match pstep (2 * s.length + 4) PJob.val s with
  | some (v, rest) => if skipWsL rest = [] then some v else none
  | none => none

/-- Escape one character the way `JSON.stringify` escapes string contents. -/
def escChar (c : Char) : Str :=
  if c = '"' then ['\\', '"']
  else if c = '\\' then ['\\', '\\']
  else if c = '\x08' then ['\\', 'b']
  else if c = '\t' then ['\\', 't']
  else if c = '\n' then ['\\', 'n']
  else if c = '\x0c' then ['\\', 'f']
  else if c = '\r' then ['\\', 'r']
  else if c.toNat < 0x20 then
    ['\\', 'u', '0', '0',
     (Nat.digitChar (c.toNat / 16)), (Nat.digitChar (c.toNat % 16))]
  else [c]

/-- Render a string literal as `JSON.stringify` does. -/
def canonStr (s : Str) : Str := '"' :: (s.map escChar).flatten ++ ['"']

/-- Join rendered pieces with commas. -/
def joinComma : List Str → Str
  | [] => []
  | [x] => x
  | x :: y :: r => x ++ ',' :: joinComma (y :: r)

/-- Model of `JSON.stringify` on parsed values, fuel-indexed to keep the
recursion structural.  Every use site passes a fuel bounding the value's
depth (the length of the text the value was parsed from suffices), so the
zero case is never reached on the wire data of this model. -/
def canonGo : Nat → JVal → Str
  | _, JVal.jnull => "null".data
  | _, JVal.jbool true => "true".data
  | _, JVal.jbool false => "false".data
  | _, JVal.jnum l => l
  | _, JVal.jstr s => canonStr s
  | 0, JVal.jarr _ => []
  | 0, JVal.jobj _ => []
  | Nat.succ n, JVal.jarr xs => '[' :: joinComma (xs.map (canonGo n)) ++ [']']
  | Nat.succ n, JVal.jobj fs =>
    '\x7b' :: joinComma (fs.map (fun kv => canonStr kv.1 ++ ':' :: canonGo n kv.2)) ++ ['\x7d']

/-- Translation of `tryParseJSONObject` (src/utils.ts lines 202-215): reject
empty text or text without a brace, then parse; only a JSON object (not
`null`, not an array, not a scalar) is accepted.  `some fields` is the
`{ ok: true, value }` result. -/
def tryParseJSONObject (text : Str) : Option (List (Str × JVal)) :=
  if text = [] ∨ ¬ text.contains '\x7b' then none
  else
    match jsonParse text with
    | some (JVal.jobj fs) => some fs
    | _ => none

example : tryParseJSONObject "\x7b\"q\":\"x\"\x7d".data = some [("q".data, JVal.jstr "x".data)] := rfl
example : tryParseJSONObject "\x7binvalid".data = none := rfl
example : tryParseJSONObject "[1]".data = none := rfl
example : tryParseJSONObject "42".data = none := rfl
example : tryParseJSONObject "".data = none := rfl
example : tryParseJSONObject "\x7b\x7d".data = some [] := rfl
example : tryParseJSONObject " \x7b\"a\": [1, true, null]\x7d ".data
    = some [("a".data, JVal.jarr [JVal.jnum "1".data, JVal.jbool true, JVal.jnull])] := rfl

/-! ### Sentinel tokens and control-token stripping (src/provider.ts 567-573, 802-812) -/

/-- Inline call-begin sentinel. -/
def BEGINtok : Str := "<|tool_call_begin|>".data

/-- Inline arguments-begin sentinel. -/
def ARGBEGINtok : Str := "<|tool_call_argument_begin|>".data

/-- Inline call-end sentinel. -/
def ENDtok : Str := "<|tool_call_end|>".data

/-- Characters matched by the regex class `[a-zA-Z0-9_-]` of the section-marker pattern. -/
def isSectionChar (c : Char) : Bool := c.isAlpha || c.isDigit || c = '_' || c = '-'

/-- Length of the match of `/<\|[a-zA-Z0-9_-]+_section_(?:begin|end)\|>/` at the
head of `s`, replicating the greedy backtracking of the JavaScript engine: the
class run is maximal, so the pattern matches exactly when that run ends in the
required `_section_begin` / `_section_end` suffix with a non-empty stem and is
followed by the closing marker. -/
def pat1Len (s : Str) : Option Nat :=
  match s with
  | '<' :: '|' :: r =>
    let m := r.takeWhile isSectionChar
    if ((listEndsWith m "_section_begin".data ∧ 14 < m.length)
        ∨ (listEndsWith m "_section_end".data ∧ 12 < m.length))
        ∧ listStartsWith (r.drop m.length) "|>".data then
      some (2 + m.length + 2)
    else none
  | _ => none

/-- Length of the match of `/<\|tool_call_(?:argument_)?(?:begin|end)\|>/` at the
head of `s`: one of four literal markers. -/
def pat2Len (s : Str) : Option Nat :=
  if listStartsWith s ARGBEGINtok then some ARGBEGINtok.length
  else if listStartsWith s "<|tool_call_argument_end|>".data then
    some ("<|tool_call_argument_end|>".data).length
  else if listStartsWith s BEGINtok then some BEGINtok.length
  else if listStartsWith s ENDtok then some ENDtok.length
  else none

/-- Scanner for a global regex replacement by the empty string: at each
position either skip the leftmost match (`skip` counts characters of a match
still to be consumed) or copy one character.  This is exactly the sweep a
JavaScript `String.replace(/.../g, "")` performs. -/
def stripWith (matchLen : Str → Option Nat) : Nat → Str → Str
  | _, [] => []
  | Nat.succ skip, _ :: rest => stripWith matchLen skip rest
  | 0, c :: rest =>
    match matchLen (c :: rest) with
    | some k => stripWith matchLen (k - 1) rest
    | none => c :: stripWith matchLen 0 rest

/-- Translation of `stripControlTokens` (src/provider.ts 803-812): first remove
every section marker, then every tool-call marker, each as one global
replacement pass. -/
def stripControlTokens (text : Str) : Str :=
  stripWith pat2Len 0 (stripWith pat1Len 0 text)

example : stripControlTokens "a<|tool_calls_section_begin|>b<|tool_call_begin|>c".data = "abc".data := rfl
example : stripControlTokens "<|tool_c<|tool_call_end|>all_end|>".data = "<|tool_call_end|>".data := rfl

/-! ### Session state and output events (src/provider.ts 24-51) -/

/-- Translation of the `{ id?; name?; args }` buffers of `_toolCallBuffers`. -/
structure ToolCallBuffer where
  id : Option Str
  name : Option Str
  args : Str
deriving DecidableEq

/-- Translation of the `_textToolActive` record of the inline scanner. -/
structure ActiveTextTool where
  name : Option Str
  index : Option Nat
  argBuffer : Str
  emitted : Bool
deriving DecidableEq

/-- Dedup identity used by the inline text path when it emits a tool call:
`(name, stream index)` when the header carried an index, otherwise
`(name, canonical JSON of the arguments)`. -/
inductive InlineIdent where
  | byIndex (nm : Str) (i : Nat)
  | byKey (nm : Str) (canon : Str)
deriving DecidableEq

/-- Output events, mirroring the `LanguageModelResponsePart` values handed to
`progress.report`.  A tool call records the inline dedup identity it was
emitted under (`none` for the structured buffer path); this annotation is
bookkeeping for the statements and does not influence the computation. -/
inductive Event where
  | text (s : Str)
  | thinking (s : Str) (id : Option Str) (meta : Option JVal)
  | toolCall (id : Str) (name : Str) (args : List (Str × JVal)) (inlineId : Option InlineIdent)

/-- Translation of the per-session mutable fields of
`HuggingFaceChatModelProvider`; `rng` is the deterministic stand-in for
`Math.random`-generated id suffixes. -/
structure CoreState where
  toolCallBuffers : List (Nat × ToolCallBuffer)
  completedToolCallIndices : List Nat
  hasEmittedAssistantText : Bool
  emittedBeginToolCallsHint : Bool
  textToolParserBuffer : Str
  textToolActive : Option ActiveTextTool
  emittedTextToolCallKeys : List Str
  emittedTextToolCallIds : List Str
  rng : Nat

/-- Lookup in a JavaScript `Map` keyed by stream index. -/
def mapGet (m : List (Nat × ToolCallBuffer)) (k : Nat) : Option ToolCallBuffer :=
  match m with
  | [] => none
  | (k0, v0) :: r => if k0 = k then some v0 else mapGet r k

/-- Update of a JavaScript `Map`: an existing key keeps its position, a new
key is appended (insertion order). -/
def mapSet (m : List (Nat × ToolCallBuffer)) (k : Nat) (v : ToolCallBuffer) :
    List (Nat × ToolCallBuffer) :=
  match m with
  | [] => [(k, v)]
  | (k0, v0) :: r => if k0 = k then (k0, v) :: r else (k0, v0) :: mapSet r k v

/-- Deletion from a JavaScript `Map` (keys are unique, so removing the first
occurrence suffices). -/
def mapDel (m : List (Nat × ToolCallBuffer)) (k : Nat) : List (Nat × ToolCallBuffer) :=
  match m with
  | [] => []
  | (k0, v0) :: r => if k0 = k then r else (k0, v0) :: mapDel r k

/-- Addition to a JavaScript `Set` (idempotent, insertion order). -/
def setAdd {α : Type} [DecidableEq α] (l : List α) (x : α) : List α :=
  if x ∈ l then l else l ++ [x]

/-- Placeholder name used when a tool call is emitted without a recorded name. -/
def unknownTool : Str := "unknown_tool".data

/-- Identity key `name:index` of the `_emittedTextToolCallIds` ledger. -/
def mkIdKey (nm : Str) (i : Nat) : Str := nm ++ ':' :: natChars i

/-- Content key `name:canonicalJSON` of the `_emittedTextToolCallKeys` ledger. -/
def mkCanonKey (nm canon : Str) : Str := nm ++ ':' :: canon

/-! ### Inline text tool-call emission (src/provider.ts 692-735) -/

/-- Translation of `emitTextToolCallIfValid` (lines 692-719): parse the
argument text as a JSON object, dedup by `(name, index)` against the identity
ledger when an index is present and by `(name, canonical JSON)` against the
key ledger otherwise, record the identity/key, and report the tool call with
a fresh `tct_` id.  Returns the `did`-emit flag together with the updated
state and reported events. -/
def emitTextToolCallIfValid (st : CoreState) (call : ActiveTextTool) (argText : Str) :
    Bool × CoreState × List Event :=
  let name := call.name.getD unknownTool
  match tryParseJSONObject argText with
  | none => (false, st, [])
  | some fs =>
    let canonical := canonGo (argText.length + 1) (JVal.jobj fs)
    let key := mkCanonKey name canonical
    match call.index with
    | some i =>
      let idKey := mkIdKey name i
      if idKey ∈ st.emittedTextToolCallIds then (false, st, [])
      else
        let st2 := { st with
          emittedTextToolCallIds := setAdd st.emittedTextToolCallIds idKey,
          emittedTextToolCallKeys := setAdd st.emittedTextToolCallKeys key }
        (true, { st2 with rng := st2.rng + 1 },
          [Event.toolCall ("tct_".data ++ natChars st2.rng) name fs
            (some (InlineIdent.byIndex name i))])
    | none =>
      if key ∈ st.emittedTextToolCallKeys then (false, st, [])
      else
        let st2 := { st with
          emittedTextToolCallKeys := setAdd st.emittedTextToolCallKeys key }
        (true, { st2 with rng := st2.rng + 1 },
          [Event.toolCall ("tct_".data ++ natChars st2.rng) name fs
            (some (InlineIdent.byKey name canonical))])

/-- Translation of `flushActiveTextToolCall` (lines 721-735): on the `[DONE]`
sentinel, emit the still-active inline call if its arguments parse (dedup
applies), silently keep state otherwise. -/
def flushActiveTextToolCall (st : CoreState) : CoreState × List Event :=
  match st.textToolActive with
  | none => (st, [])
  | some act =>
    match tryParseJSONObject act.argBuffer with
    | none => (st, [])
    | some _ =>
      let r := emitTextToolCallIfValid st act act.argBuffer
      ({ r.2.1 with textToolActive := none }, r.2.2)

/-! ### Inline control-token scanner (src/provider.ts 567-690) -/

/-- Result of the scanning loop of `processTextContent`: final state, the
accumulated visible text, the tool-call events reported during the loop, the
`emittedAny` flag, and the final value of the local `data` variable. -/
structure TextLoopRes where
  st : CoreState
  visibleOut : Str
  events : List Event
  emittedAny : Bool
  data : Str

/-- Characters dropped by `String.prototype.trim` (the whitespace that occurs
on this wire format). -/
def isJsSpace (c : Char) : Bool :=
  c = ' ' || c = '\t' || c = '\n' || c = '\r' || c = '\x0b' || c = '\x0c'

/-- Trim on both ends, as `String.prototype.trim`. -/
def trimChars (s : Str) : Str :=
  ((s.dropWhile isJsSpace).reverse.dropWhile isJsSpace).reverse

/-- Characters of the permissive header identifier class `[A-Za-z0-9_\-.]`. -/
def isNameChar (c : Char) : Bool :=
  c.isAlpha || c.isDigit || c = '_' || c = '-' || c = '.'

/-- Numeric value of a digit run (`Number(...)` on the digits captured by `\d+`). -/
def digitsToNat (ds : Str) : Nat :=
  ds.foldl (fun acc c => acc * 10 + (c.toNat - '0'.toNat)) 0

/-- Match of the header pattern `/^([A-Za-z0-9_\-.]+)(?::(\d+))?/` on a trimmed
header, returning the captured name and optional index. -/
def headerMatch (h : Str) : Option Str × Option Nat :=
  let nm := h.takeWhile isNameChar
  if nm = [] then (none, none)
  else
    match h.drop nm.length with
    | ':' :: rest =>
      let ds := rest.takeWhile Char.isDigit
      if ds = [] then (some nm, none) else (some nm, some (digitsToNat ds))
    | _ => (some nm, none)

/-- Length `k` of the longest strict prefix of the call-begin sentinel that is
a suffix of `data` (lines 585-590), scanning from the largest candidate down. -/
def hangingGo : Nat → Str → Nat
  | 0, _ => 0
  | Nat.succ k, data =>
    if listEndsWith data (BEGINtok.take (k + 1)) then k + 1 else hangingGo k data

/-- Longest partial call-begin prefix retained at a chunk end. -/
def hangingBeginLen (data : Str) : Nat :=
  hangingGo (min (BEGINtok.length - 1) (data.length - 1)) data

/-- Translation of the `while (data.length > 0)` loop of `processTextContent`
(lines 580-676).  Every iteration that continues consumes at least one
character of `data`, so the fuel passed by `processTextContent` is never
exhausted; the fuel-out branch returns the running state unchanged. -/
def textLoop : Nat → Str → CoreState → Str → List Event → Bool → TextLoopRes
  | 0, data, st, vo, evs, ea => ⟨st, vo, evs, ea, data⟩
  | Nat.succ fuel, data, st, vo, evs, ea =>
    match data with
    | [] => ⟨st, vo, evs, ea, []⟩
    | _ :: _ =>
      match st.textToolActive with
      | none =>
        (match subIndex data BEGINtok with
         | none =>
           let k := hangingBeginLen data
           if 0 < k then
             let visible := data.take (data.length - k)
             let vo2 := if visible ≠ [] then vo ++ stripControlTokens visible else vo
             ⟨{ st with textToolParserBuffer := data.drop (data.length - k) }, vo2, evs, ea, []⟩
           else
             ⟨st, vo ++ stripControlTokens data, evs, ea, []⟩
         | some b =>
           let pre := data.take b
           let vo2 := if pre ≠ [] then vo ++ stripControlTokens pre else vo
           let data2 := data.drop (b + BEGINtok.length)
           let a := subIndex data2 ARGBEGINtok
           let e := subIndex data2 ENDtok
           let startCall := fun (delimIdx : Nat) =>
             let header := trimChars (data2.take delimIdx)
             let nmix := headerMatch header
             ActiveTextTool.mk nmix.1 nmix.2 [] false
           match a, e with
           | some ai, none =>
             textLoop fuel (data2.drop (ai + ARGBEGINtok.length))
               { st with textToolActive := some (startCall ai) } vo2 evs ea
           | some ai, some ei =>
             if ai < ei then
               textLoop fuel (data2.drop (ai + ARGBEGINtok.length))
                 { st with textToolActive := some (startCall ai) } vo2 evs ea
             else
               let act := startCall ei
               let r := emitTextToolCallIfValid { st with textToolActive := some act } act
                 "\x7b\x7d".data
               textLoop fuel (data2.drop (ei + ENDtok.length))
                 { r.2.1 with textToolActive := none } vo2 (evs ++ r.2.2) (ea || r.1)
           | none, some ei =>
             let act := startCall ei
             let r := emitTextToolCallIfValid { st with textToolActive := some act } act
               "\x7b\x7d".data
             textLoop fuel (data2.drop (ei + ENDtok.length))
               { r.2.1 with textToolActive := none } vo2 (evs ++ r.2.2) (ea || r.1)
           | none, none =>
             ⟨{ st with textToolParserBuffer := BEGINtok ++ data2 }, vo2, evs, ea, []⟩)
      | some act =>
        match subIndex data ENDtok with
        | none =>
          let act2 := { act with argBuffer := act.argBuffer ++ data }
          if act2.emitted = false then
            let r := emitTextToolCallIfValid { st with textToolActive := some act2 } act2
              act2.argBuffer
            let act3 := if r.1 then { act2 with emitted := true } else act2
            ⟨{ r.2.1 with textToolActive := some act3 }, vo, evs ++ r.2.2, ea || r.1, []⟩
          else
            ⟨{ st with textToolActive := some act2 }, vo, evs, ea, []⟩
        | some e2 =>
          let act2 := { act with argBuffer := act.argBuffer ++ data.take e2 }
          let data3 := data.drop (e2 + ENDtok.length)
          if act2.emitted = false then
            let r := emitTextToolCallIfValid { st with textToolActive := some act2 } act2
              act2.argBuffer
            textLoop fuel data3 { r.2.1 with textToolActive := none } vo (evs ++ r.2.2) (ea || r.1)
          else
            textLoop fuel data3 { st with textToolActive := none } vo evs ea

/-- Translation of `processTextContent` (lines 567-690): run the scanner on
the carried-over residue plus the new text, then report the visible text (if
non-empty) as one text event and store the loop's final `data` as the new
residue - faithfully including the fact that this final assignment happens
after the loop and therefore overwrites the residues saved inside it.
Returns `(state, events, emittedText, emittedAny)`. -/
def processTextContent (input : Str) (st : CoreState) :
    CoreState × List Event × Bool × Bool :=
  let data0 := st.textToolParserBuffer ++ input
  let r := textLoop (data0.length + 1) data0 st [] [] false
  if r.visibleOut ≠ [] then
    ({ r.st with textToolParserBuffer := r.data },
      r.events ++ [Event.text r.visibleOut], true, true)
  else
    ({ r.st with textToolParserBuffer := r.data }, r.events, false, r.emittedAny)

/-! ### JavaScript value helpers used by `processDelta` -/

/-- Property access on a parsed JSON value: `none` is `undefined` (also for
property access on non-objects, as in JavaScript). -/
def getField (v : JVal) (name : Str) : Option JVal :=
  match v with
  | JVal.jobj fs => (fs.find? (fun kv => kv.1 = name)).map Prod.snd
  | _ => none

/-- Test whether all mantissa digits of a number lexeme are zero (the JSON
lexemes denoting the number 0). -/
def jnumIsZero (lex : Str) : Bool :=
  ((lex.takeWhile (fun c => c ≠ 'e' && c ≠ 'E')).filter Char.isDigit).all (fun c => c = '0')

/-- JavaScript truthiness of a parsed JSON value. -/
def jsTruthy (v : JVal) : Bool :=
  match v with
  | JVal.jnull => false
  | JVal.jbool b => b
  | JVal.jnum lex => ¬ jnumIsZero lex
  | JVal.jstr s => s ≠ []
  | JVal.jarr _ => true
  | JVal.jobj _ => true

/-- Fuel-indexed `String(value)` conversion; strings are exact, numbers keep
their lexeme, arrays join their members with commas as `Array.prototype.toString`
(`null` members become empty), objects render as the standard tag. -/
def jsToStrGo : Nat → JVal → Str
  | _, JVal.jnull => "null".data
  | _, JVal.jbool true => "true".data
  | _, JVal.jbool false => "false".data
  | _, JVal.jnum lex => lex
  | _, JVal.jstr s => s
  | 0, JVal.jarr _ => []
  | Nat.succ n, JVal.jarr xs =>
    joinComma (xs.map (fun x => match x with | JVal.jnull => [] | y => jsToStrGo n y))
  | _, JVal.jobj _ => "[object Object]".data

/-- Conversion `String(content)` of line 511.  On this wire format `content`
is a string, so the small array fuel is never reached. -/
def jsToString (v : JVal) : Str := jsToStrGo 8 v

/-! ### Structured tool-call buffer path (src/provider.ts 531-552, 742-800) -/

/-- Fragment id accepted by lines 538-540: a truthy string. -/
def fragIdStr (tc : JVal) : Option Str :=
  match getField tc "id".data with
  | some (JVal.jstr s) => if s ≠ [] then some s else none
  | _ => none

/-- Fragment name accepted by lines 541-544: a truthy string under `function`. -/
def fragNameStr (tc : JVal) : Option Str :=
  match (getField tc "function".data).bind (fun f => getField f "name".data) with
  | some (JVal.jstr s) => if s ≠ [] then some s else none
  | _ => none

/-- Fragment arguments accepted by lines 545-547: any string (also empty). -/
def fragArgsStr (tc : JVal) : Option Str :=
  match (getField tc "function".data).bind (fun f => getField f "arguments".data) with
  | some (JVal.jstr s) => some s
  | _ => none

/-- Stream index of a fragment, `(tc.index as number) ?? 0` (line 532).
Indices on this wire format are non-negative integer literals (spec interface
`index: int`); other values are outside the modelled wire shape. -/
def fragIndex (tc : JVal) : Nat :=
  match getField tc "index".data with
  | some (JVal.jnum lex) => if lex ≠ [] ∧ lex.all Char.isDigit then digitsToNat lex else 0
  | _ => 0

/-- Fold one structured fragment into a buffer (lines 538-547): a truthy
string id overwrites the stored id, likewise the name, and an arguments
string is appended to the accumulator. -/
def mergeToolCallFragment (buf : ToolCallBuffer) (tc : JVal) : ToolCallBuffer :=
  let b1 := match fragIdStr tc with
    | some s => { buf with id := some s }
    | none => buf
  let b2 := match fragNameStr tc with
    | some s => { b1 with name := some s }
    | none => b1
  match fragArgsStr tc with
  | some s => { b2 with args := b2.args ++ s }
  | none => b2

/-- Translation of `tryEmitBufferedToolCall` (lines 742-766): emit the
buffered call for `idx` when a (non-empty) name is recorded and the
accumulated arguments parse as a JSON object; synthesize a `call_` id when
none was supplied, record the content key in the key ledger, report once,
delete the buffer entry and mark the index completed. -/
def tryEmitBufferedToolCall (idx : Nat) (st : CoreState) : CoreState × List Event :=
  match mapGet st.toolCallBuffers idx with
  | none => (st, [])
  | some buf =>
    if buf.name.getD [] = [] then (st, [])
    else
      match tryParseJSONObject buf.args with
      | none => (st, [])
      | some fs =>
        let id := match buf.id with
          | some i => i
          | none => "call_".data ++ natChars st.rng
        let rng2 := match buf.id with | some _ => st.rng | none => st.rng + 1
        let name := buf.name.getD []
        let canonical := canonGo (buf.args.length + 1) (JVal.jobj fs)
        ({ st with
            emittedTextToolCallKeys := setAdd st.emittedTextToolCallKeys (mkCanonKey name canonical),
            toolCallBuffers := mapDel st.toolCallBuffers idx,
            completedToolCallIndices := setAdd st.completedToolCallIndices idx,
            rng := rng2 },
          [Event.toolCall id name fs none])

/-- Worker of `flushToolCallBuffers`, iterating the snapshot of the buffer
entries (lines 780-799).  In strict mode an entry with unparseable arguments
raises (`some message`), abandoning the iteration with the effects so far;
otherwise such an entry is skipped silently.  Valid entries are emitted with
`unknown_tool` replacing a missing name. -/
def flushGo : List (Nat × ToolCallBuffer) → Bool → CoreState → List Event →
    CoreState × List Event × Option Str
  | [], _, st, evs => (st, evs, none)
  | (idx, buf) :: rest, strict, st, evs =>
    match tryParseJSONObject buf.args with
    | none =>
      if strict then (st, evs, some "Invalid JSON for tool call".data)
      else flushGo rest strict st evs
    | some fs =>
      let id := match buf.id with
        | some i => i
        | none => "call_".data ++ natChars st.rng
      let rng2 := match buf.id with | some _ => st.rng | none => st.rng + 1
      let name := buf.name.getD unknownTool
      let canonical := canonGo (buf.args.length + 1) (JVal.jobj fs)
      flushGo rest strict
        { st with
          emittedTextToolCallKeys := setAdd st.emittedTextToolCallKeys (mkCanonKey name canonical),
          toolCallBuffers := mapDel st.toolCallBuffers idx,
          completedToolCallIndices := setAdd st.completedToolCallIndices idx,
          rng := rng2 }
        (evs ++ [Event.toolCall id name fs none])

/-- Translation of `flushToolCallBuffers` (lines 773-800). -/
def flushToolCallBuffers (strict : Bool) (st : CoreState) : CoreState × List Event × Option Str :=
  if st.toolCallBuffers = [] then (st, [], none)
  else flushGo st.toolCallBuffers strict st []

/-- Translation of the per-fragment body of the `tool_calls` loop
(lines 531-552): fragments for a completed index are ignored; otherwise the
fragment is merged into the buffer for its index and an immediate emission is
attempted. -/
def processToolCallFragment (tc : JVal) (st : CoreState) : CoreState × List Event :=
  let idx := fragIndex tc
  if idx ∈ st.completedToolCallIndices then (st, [])
  else
    let buf := (mapGet st.toolCallBuffers idx).getD ⟨none, none, []⟩
    let buf2 := mergeToolCallFragment buf tc
    tryEmitBufferedToolCall idx { st with toolCallBuffers := mapSet st.toolCallBuffers idx buf2 }

/-- Fold `processToolCallFragment` over the fragments of one delta. -/
def processToolCallFragments : List JVal → CoreState → CoreState × List Event
  | [], st => (st, [])
  | tc :: rest, st =>
    let r := processToolCallFragment tc st
    let r2 := processToolCallFragments rest r.1
    (r2.1, r.2 ++ r2.2)

/-! ### Delta processing (src/provider.ts 471-561) -/

/-- Nullish coalescing `a ?? b` on optional JSON values (`none` is `undefined`). -/
def nullish (a b : Option JVal) : Option JVal :=
  match a with
  | none => b
  | some JVal.jnull => b
  | some v => some v

/-- Extraction of `(text, id, metadata)` from a thinking payload
(lines 489-500): an object contributes its string `text`/`id` fields and its
`metadata`, a plain string is the text itself, anything else yields empty
text (and hence no event). -/
def thinkingParts (v : JVal) : Str × Option Str × Option JVal :=
  match v with
  | JVal.jobj fs =>
    ((match getField (JVal.jobj fs) "text".data with
      | some (JVal.jstr s) => s
      | _ => []),
     (match getField (JVal.jobj fs) "id".data with
      | some (JVal.jstr s) => some s
      | _ => none),
     getField (JVal.jobj fs) "metadata".data)
  | JVal.jstr s => (s, none, none)
  | _ => ([], none, none)

/-- Thinking events reported by one delta (lines 482-509): the nullish-chosen
payload, when it yields non-empty text, becomes one thinking event. -/
def thinkStepEvs (choice : JVal) (deltaObj : Option JVal) : List Event :=
  match nullish (getField choice "thinking".data)
      (deltaObj.bind (fun d => getField d "thinking".data)) with
  | none => []
  | some v =>
    let t := thinkingParts v
    if t.1 ≠ [] then [Event.thinking t.1 t.2.1 t.2.2] else []

/-- Content handling of one delta (lines 510-519): truthy content is run
through the inline scanner and a visible-text emission raises the
assistant-text flag. -/
def contentStep (deltaObj : Option JVal) (st : CoreState) : CoreState × List Event :=
  match deltaObj.bind (fun d => getField d "content".data) with
  | some v =>
    if jsTruthy v then
      let r := processTextContent (jsToString v) st
      (({ r.1 with hasEmittedAssistantText := r.1.hasEmittedAssistantText || r.2.2.1 } :
          CoreState), r.2.1)
    else (st, ([] : List Event))
  | none => (st, ([] : List Event))

/-- Tool-calls handling of one delta (lines 521-553): the one-shot whitespace
hint, then the fragment fold; iterating a non-list raises, faithfully to the
for-of semantics. -/
def toolCallsStep (deltaObj : Option JVal) (st1 : CoreState) :
    CoreState × List Event × Option Str :=
  match deltaObj.bind (fun d => getField d "tool_calls".data) with
  | some v =>
    if jsTruthy v then
      let len := match v with
        | JVal.jarr xs => xs.length
        | JVal.jstr s => s.length
        | _ => 0
      let hintOn := !st1.emittedBeginToolCallsHint && st1.hasEmittedAssistantText &&
        decide (0 < len)
      let hintEvs := if hintOn then [Event.text [' ']] else []
      let st2 := if hintOn then
        { st1 with emittedBeginToolCallsHint := true } else st1
      match v with
      | JVal.jarr xs =>
        let r := processToolCallFragments xs st2
        (r.1, hintEvs ++ r.2, (none : Option Str))
      | JVal.jstr s =>
        let r := processToolCallFragments (s.map (fun c => JVal.jstr [c])) st2
        (r.1, hintEvs ++ r.2, (none : Option Str))
      | _ => (st2, hintEvs, some "TypeError: not iterable".data)
    else (st1, [], none)
  | none => (st1, [], none)

/-- Finish handling of one delta (lines 555-559): a `tool_calls` or `stop`
finish reason triggers the strict flush. -/
def finishStep (choice : JVal) (st3 : CoreState) : CoreState × List Event × Option Str :=
  match getField choice "finish_reason".data with
  | some (JVal.jstr s) =>
    if s = "tool_calls".data ∨ s = "stop".data then flushToolCallBuffers true st3
    else (st3, [], none)
  | _ => (st3, [], none)

/-- Translation of `processDelta` (lines 471-561): thinking, content,
tool-call fragments and the finish flush, in source order.  The result
carries the events reported before a possible raise together with
`some message` when a step threw; the caller in `processStreamingResponse`
swallows that error. -/
def processDelta (delta : JVal) (st : CoreState) : CoreState × List Event × Option Str :=
  let choice? := match getField delta "choices".data with
    | some (JVal.jarr (c :: _)) => some c
    | _ => none
  match choice? with
  | none => (st, [], none)
  | some choice =>
    if jsTruthy choice = false then (st, [], none)
    else
      let deltaObj := getField choice "delta".data
      let thinkEvs := thinkStepEvs choice deltaObj
      let cres := contentStep deltaObj st
      let tres := toolCallsStep deltaObj cres.1
      let evs := thinkEvs ++ cres.2 ++ tres.2.1
      match tres.2.2 with
      | some e => (tres.1, evs, some e)
      | none =>
        let f := finishStep choice tres.1
        (f.1, evs ++ f.2.1, f.2.2)

/-! ### Session controller (src/provider.ts 414-464, 247-262) -/

/-- Translation of the per-line body of `processStreamingResponse`
(lines 432-451): lines without the `data: ` tag are skipped, the `[DONE]`
sentinel runs the non-strict flush followed by the inline-call flush, any
other payload is JSON-parsed (a parse failure skips the line) and handed to
`processDelta` - whose raised errors are swallowed by the same catch that
guards the parse. -/
def processLine (line : Str) (st : CoreState) : CoreState × List Event :=
  if listStartsWith line "data: ".data = false then (st, [])
  else
    let dat := line.drop 6
    if dat = "[DONE]".data then
      let f := flushToolCallBuffers false st
      let g := flushActiveTextToolCall f.1
      (g.1, f.2.1 ++ g.2)
    else
      match jsonParse dat with
      | none => (st, [])
      | some j =>
        let r := processDelta j st
        (r.1, r.2.1)

/-- Fold `processLine` over the complete lines of one chunk. -/
def processLines : List Str → CoreState → CoreState × List Event
  | [], st => (st, [])
  | l :: ls, st =>
    let r := processLine l st
    let r2 := processLines ls r.1
    (r2.1, r.2 ++ r2.2)

/-- Split a text on line feeds as `buffer.split("\n")` followed by popping the
final element: the pair of complete lines and the retained tail. -/
def breakLines : Str → List Str × Str
  | [] => ([], [])
  | c :: rest =>
    if c = '\n' then
      let p := breakLines rest
      ([] :: p.1, p.2)
    else
      let p := breakLines rest
      match p.1 with
      | [] => ([], c :: p.2)
      | l :: ls => ((c :: l) :: ls, p.2)

/-- State of one streaming session: the decoder state plus the splitter's
retained unterminated line (`buffer` of line 421). -/
structure SessionState where
  core : CoreState
  lineBuffer : Str

/-- Feed one received chunk through the session (lines 428-451): append to
the retained tail, split off the complete lines, process them in order and
retain the new tail. -/
def feedChunk (s : SessionState) (chunk : Str) : SessionState × List Event :=
  let p := breakLines (s.lineBuffer ++ chunk)
  let r := processLines p.1 s.core
  (⟨r.1, p.2⟩, r.2)

/-- Feed a list of chunks in order, concatenating the reported events. -/
def feedAll (s : SessionState) : List Str → SessionState × List Event
  | [] => (s, [])
  | c :: cs =>
    let r := feedChunk s c
    let r2 := feedAll r.1 cs
    (r2.1, r.2 ++ r2.2)

/-- Cleanup of the `finally` block of `processStreamingResponse`
(lines 453-463): every per-session field is reset - except the
`_emittedTextToolCallIds` identity ledger, which the block does not touch. -/
def cleanupCore (st : CoreState) : CoreState :=
  { st with
    toolCallBuffers := []
    completedToolCallIndices := []
    hasEmittedAssistantText := false
    emittedBeginToolCallsHint := false
    textToolParserBuffer := []
    textToolActive := none
    emittedTextToolCallKeys := [] }

/-- Reset performed at the start of `provideLanguageModelChatResponse`
(lines 255-262), which does clear the identity ledger as well. -/
def startRequestReset (st : CoreState) : CoreState :=
  { st with
    toolCallBuffers := []
    completedToolCallIndices := []
    hasEmittedAssistantText := false
    emittedBeginToolCallsHint := false
    textToolParserBuffer := []
    textToolActive := none
    emittedTextToolCallKeys := []
    emittedTextToolCallIds := [] }

/-- Fresh decoder state at the start of a request. -/
def initCore : CoreState :=
  ⟨[], [], false, false, [], none, [], [], 0⟩

/-- Run one streaming session on the given chunks: optionally stop reading
when cancellation is observed before chunk `k` (the loop polls the token once
per read), then apply the `finally` cleanup.  The returned events are
everything reported to `progress`. -/
def runSession (chunks : List Str) (cancelAt : Option Nat) : SessionState × List Event :=
  let fed := match cancelAt with
    | none => chunks
    | some k => chunks.take k
  let r := feedAll ⟨initCore, []⟩ fed
  (⟨cleanupCore r.1.core, r.1.lineBuffer⟩, r.2)

/-! ### Concrete streams used by the claim theorems -/

/-- Frame delivering a structured fragment whose arguments never become valid
JSON (buffer at index 0 holds the unparseable accumulator). -/
def frameInvalidArgs : Str :=
  "data: \x7b\"choices\":[\x7b\"delta\":\x7b\"tool_calls\":[\x7b\"index\":0,\"function\":\x7b\"name\":\"f\",\"arguments\":\"\x7binvalid\"\x7d\x7d]\x7d\x7d]\x7d\n".data

/-- Frame delivering a second buffered call (index 1) with valid JSON
arguments but no name, so it stays buffered until a flush. -/
def frameValidNoName : Str :=
  "data: \x7b\"choices\":[\x7b\"delta\":\x7b\"tool_calls\":[\x7b\"index\":1,\"id\":\"okid\",\"function\":\x7b\"arguments\":\"\x7b\\\"a\\\":1\x7d\"\x7d\x7d]\x7d\x7d]\x7d\n".data

/-- Frame carrying `finish_reason: "tool_calls"` and nothing else. -/
def frameFinishToolCalls : Str :=
  "data: \x7b\"choices\":[\x7b\"delta\":\x7b\x7d,\"finish_reason\":\"tool_calls\"\x7d]\x7d\n".data

/-- Frame carrying plain text content `after`. -/
def frameAfterText : Str :=
  "data: \x7b\"choices\":[\x7b\"delta\":\x7b\"content\":\"after\"\x7d\x7d]\x7d\n".data

/-- Terminal sentinel frame. -/
def frameDone : Str := "data: [DONE]\n".data

/-- Delta payload of `frameFinishToolCalls` as a parsed value. -/
def finishDelta : JVal := (jsonParse ((frameFinishToolCalls.drop 6).dropLast)).getD JVal.jnull

/-- Decoder state right after `frameInvalidArgs` was processed (no cleanup). -/
def stAfterInvalid : CoreState := (feedAll ⟨initCore, []⟩ [frameInvalidArgs]).1.core

/-- Parsed fields of the arguments object delivered by `frameValidNoName`. -/
def aFields : List (Str × JVal) := [("a".data, JVal.jnum "1".data)]

/-- C1 (code_bug evidence).  Part one: with an unparseable buffer at index 0
and a valid nameless buffer at index 1, the `[DONE]` sentinel completes
silently - the non-strict flush raises nothing, the invalid call is dropped
and the valid buffered call is still emitted.  Part two: a
`finish_reason: "tool_calls"` frame does raise the strict-flush error inside
`processDelta` - but the per-line catch of `processStreamingResponse`
swallows it, so the error does not abort the response: a later content frame
still reports its text, contradicting the claim's "aborts the whole
response". -/
theorem claim1_evidence :
    (runSession [frameInvalidArgs, frameValidNoName, frameDone] none).2 =
      [Event.toolCall "okid".data unknownTool aFields none]
    ∧ (flushToolCallBuffers false
        (feedAll ⟨initCore, []⟩ [frameInvalidArgs, frameValidNoName]).1.core).2.2 = none
    ∧ (processDelta finishDelta stAfterInvalid).2.2 = some "Invalid JSON for tool call".data
    ∧ (runSession [frameInvalidArgs, frameFinishToolCalls, frameAfterText, frameDone] none).2 =
      [Event.text "after".data] := by
  refine ⟨rfl, rfl, rfl, rfl⟩

/-- Structured fragment frame with index 0, id `a`, name `f` and an argument
fragment that is not yet complete JSON. -/
def frameIdA : Str :=
  "data: \x7b\"choices\":[\x7b\"delta\":\x7b\"tool_calls\":[\x7b\"index\":0,\"id\":\"a\",\"function\":\x7b\"name\":\"f\",\"arguments\":\"\x7b\"\x7d\x7d]\x7d\x7d]\x7d\n".data

/-- Later structured fragment for the same index carrying only the id `b`. -/
def frameIdB : Str :=
  "data: \x7b\"choices\":[\x7b\"delta\":\x7b\"tool_calls\":[\x7b\"index\":0,\"id\":\"b\"\x7d]\x7d\x7d]\x7d\n".data

/-- Fragment value (as parsed JSON) carrying only the id `b`. -/
def fragOnlyIdB : JVal := JVal.jobj [("index".data, JVal.jnum "0".data), ("id".data, JVal.jstr "b".data)]

/-- C4 (counterexample).  The claim says a buffered call's id is merged
first-non-empty-wins and never overwritten; on the code a later fragment's
non-empty id does overwrite it: folding a fragment with id `b` into a buffer
that already holds id `a` leaves id `b`, both at the single-merge level and
after running the full session pipeline on the two frames. -/
theorem claim4_counterexample :
    mergeToolCallFragment ⟨some "a".data, some "f".data, "\x7b".data⟩ fragOnlyIdB =
      ⟨some "b".data, some "f".data, "\x7b".data⟩
    ∧ (mapGet (feedAll ⟨initCore, []⟩ [frameIdA, frameIdB]).1.core.toolCallBuffers 0).map
        ToolCallBuffer.id = some (some "b".data)
    ∧ some "b".data ≠ some "a".data := by
  refine ⟨rfl, rfl, by decide⟩

/-- C4 (amended).  On each structured fragment the merge is
last-non-empty-wins: a truthy string id in the fragment overwrites the stored
id and otherwise the stored id is kept; the name is merged the same way; each
arguments fragment is appended to the accumulator in arrival order with no
separator (two successive fragments append their argument strings in order). -/
theorem claim4_amended (buf : ToolCallBuffer) (tc1 tc2 : JVal) :
    (mergeToolCallFragment buf tc1).id =
      (match fragIdStr tc1 with | some s => some s | none => buf.id)
    ∧ (mergeToolCallFragment buf tc1).name =
      (match fragNameStr tc1 with | some s => some s | none => buf.name)
    ∧ (mergeToolCallFragment buf tc1).args = buf.args ++ (fragArgsStr tc1).getD []
    ∧ (mergeToolCallFragment (mergeToolCallFragment buf tc1) tc2).args =
      buf.args ++ (fragArgsStr tc1).getD [] ++ (fragArgsStr tc2).getD [] := by
  unfold mergeToolCallFragment
  cases fragIdStr tc1 <;> cases fragNameStr tc1 <;> cases fragArgsStr tc1 <;>
    cases fragIdStr tc2 <;> cases fragNameStr tc2 <;> cases fragArgsStr tc2 <;> simp

/-- C5.  Once a stream index is marked completed, any later structured
fragment carrying that index is ignored: the state is unchanged and nothing
is emitted. -/
theorem claim5_completed_index_ignored (st : CoreState) (tc : JVal)
    (h : fragIndex tc ∈ st.completedToolCallIndices) :
    processToolCallFragment tc st = (st, []) := by
  unfold processToolCallFragment
  simp [h]

/-- Witness for C5 at a concrete completed index. -/
theorem claim5_witness :
    fragIndex fragOnlyIdB ∈ [0] ∧
    processToolCallFragment fragOnlyIdB ⟨[], [0], false, false, [], none, [], [], 0⟩ =
      (⟨[], [0], false, false, [], none, [], [], 0⟩, []) := by
  refine ⟨by decide, claim5_completed_index_ignored _ _ (by decide)⟩

/-- Frame whose content is a complete inline tool call `search:0` with
arguments. -/
def frameInlineSearch : Str :=
  "data: \x7b\"choices\":[\x7b\"delta\":\x7b\"content\":\"<|tool_call_begin|>search:0<|tool_call_argument_begin|>\x7b\\\"q\\\":1\x7d<|tool_call_end|>\"\x7d\x7d]\x7d\n".data

/-- C9 (counterexample).  On the session's exit path the `finally` cleanup
does not clear the `(name,index)` identity ledger: after a session that
emitted an indexed inline call, `runSession` returns with
`emittedTextToolCallIds` still holding the identity. -/
theorem claim9_counterexample :
    (runSession [frameInlineSearch, frameDone] none).1.core.emittedTextToolCallIds =
      [mkIdKey "search".data 0]
    ∧ [mkIdKey "search".data 0] ≠ ([] : List Str) := by
  refine ⟨rfl, by decide⟩

/-- C9 (amended).  On every exit path - normal completion or cancellation
after any number of reads - the cleanup run before `processStreamingResponse`
returns clears the tool-call buffers, the completed-index set, the text
flags, the inline residual buffer, the active inline call and the
`(name, canonical JSON)` key ledger; the `(name,index)` identity ledger is
not cleared there, and is instead reset at the start of the next request by
`provideLanguageModelChatResponse` (modelled by `startRequestReset`). -/
theorem claim9_amended (chunks : List Str) (cancelAt : Option Nat) :
    ((runSession chunks cancelAt).1.core.toolCallBuffers = []
      ∧ (runSession chunks cancelAt).1.core.completedToolCallIndices = []
      ∧ (runSession chunks cancelAt).1.core.hasEmittedAssistantText = false
      ∧ (runSession chunks cancelAt).1.core.emittedBeginToolCallsHint = false
      ∧ (runSession chunks cancelAt).1.core.textToolParserBuffer = []
      ∧ (runSession chunks cancelAt).1.core.textToolActive = none
      ∧ (runSession chunks cancelAt).1.core.emittedTextToolCallKeys = [])
    ∧ (startRequestReset (runSession chunks cancelAt).1.core).emittedTextToolCallIds = [] := by
  unfold runSession cleanupCore startRequestReset
  simp

/-- C10.  During a finalization flush (both the non-strict `[DONE]` flush and
the strict `finish_reason` flush) a buffered call whose arguments parse as a
JSON object is emitted even when no name was ever recorded, under the
placeholder name `unknown_tool`; mid-stream early emission
(`tryEmitBufferedToolCall`) never emits a buffered call without a name. -/
theorem claim10_unknown_tool_flush (st : CoreState) (idx : Nat) (buf : ToolCallBuffer)
    (fs : List (Str × JVal)) :
    (st.toolCallBuffers = [(idx, buf)] → buf.name = none →
      tryParseJSONObject buf.args = some fs → ∀ strict : Bool,
      (flushToolCallBuffers strict st).2.1 =
        [Event.toolCall
          (match buf.id with | some i => i | none => "call_".data ++ natChars st.rng)
          unknownTool fs none])
    ∧ (buf.name = none → mapGet st.toolCallBuffers idx = some buf →
        tryEmitBufferedToolCall idx st = (st, [])) := by
  constructor
  · intro hbuf hname hparse strict
    unfold flushToolCallBuffers
    rw [hbuf]
    simp [flushGo, hparse, hname]
  · intro hname hget
    unfold tryEmitBufferedToolCall
    rw [hget]
    simp [hname]

/-- Witness for C10: a single nameless buffer with valid arguments flushes as
`unknown_tool` in both modes and is never emitted early. -/
theorem claim10_witness :
    (flushToolCallBuffers true
        ⟨[(1, ⟨some "okid".data, none, "\x7b\"a\":1\x7d".data⟩)], [], false, false, [], none, [], [], 0⟩).2.1 =
      [Event.toolCall "okid".data unknownTool aFields none]
    ∧ (flushToolCallBuffers false
        ⟨[(1, ⟨some "okid".data, none, "\x7b\"a\":1\x7d".data⟩)], [], false, false, [], none, [], [], 0⟩).2.1 =
      [Event.toolCall "okid".data unknownTool aFields none]
    ∧ tryEmitBufferedToolCall 1
        ⟨[(1, ⟨some "okid".data, none, "\x7b\"a\":1\x7d".data⟩)], [], false, false, [], none, [], [], 0⟩ =
      (⟨[(1, ⟨some "okid".data, none, "\x7b\"a\":1\x7d".data⟩)], [], false, false, [], none, [], [], 0⟩, []) := by
  refine ⟨(claim10_unknown_tool_flush
      ⟨[(1, ⟨some "okid".data, none, "\x7b\"a\":1\x7d".data⟩)], [], false, false, [], none, [], [], 0⟩
      1 ⟨some "okid".data, none, "\x7b\"a\":1\x7d".data⟩ aFields).1 rfl rfl rfl true,
    (claim10_unknown_tool_flush
      ⟨[(1, ⟨some "okid".data, none, "\x7b\"a\":1\x7d".data⟩)], [], false, false, [], none, [], [], 0⟩
      1 ⟨some "okid".data, none, "\x7b\"a\":1\x7d".data⟩ aFields).1 rfl rfl rfl false,
    (claim10_unknown_tool_flush
      ⟨[(1, ⟨some "okid".data, none, "\x7b\"a\":1\x7d".data⟩)], [], false, false, [], none, [], [], 0⟩
      1 ⟨some "okid".data, none, "\x7b\"a\":1\x7d".data⟩ aFields).2 rfl rfl⟩

/-- Key lookup after an update at the same key. -/
theorem mapGet_mapSet_self (m : List (Nat × ToolCallBuffer)) (k : Nat) (v : ToolCallBuffer) :
    mapGet (mapSet m k v) k = some v := by
  induction m with
  | nil => simp [mapSet, mapGet]
  | cons hd tl ih =>
    by_cases h : hd.1 = k
    · simp [mapSet, mapGet, h]
    · simp [mapSet, mapGet, h, ih]

/-- C3.  For every state and buffer index: `tryEmitBufferedToolCall` emits if
and only if the buffer for the index exists with a recorded (non-empty) name
and arguments that parse as a JSON object - invalid or partial JSON never
raises, it merely yields no emission - and on emission the reported call is
exactly one event whose id is the buffered id or a synthesized `call_` id,
the content key is recorded, the buffer entry is deleted and the index is
marked completed. -/
theorem claim3_buffered_emission (st : CoreState) (idx : Nat) :
    (((tryEmitBufferedToolCall idx st).2 ≠ []) ↔
      ∃ buf, mapGet st.toolCallBuffers idx = some buf ∧ buf.name.getD [] ≠ [] ∧
        (tryParseJSONObject buf.args).isSome = true)
    ∧ (∀ buf nm fs, mapGet st.toolCallBuffers idx = some buf → buf.name = some nm → nm ≠ [] →
        tryParseJSONObject buf.args = some fs →
        tryEmitBufferedToolCall idx st =
          ({ st with
              emittedTextToolCallKeys := setAdd st.emittedTextToolCallKeys
                (mkCanonKey nm (canonGo (buf.args.length + 1) (JVal.jobj fs)))
              toolCallBuffers := mapDel st.toolCallBuffers idx
              completedToolCallIndices := setAdd st.completedToolCallIndices idx
              rng := match buf.id with | some _ => st.rng | none => st.rng + 1 },
            [Event.toolCall
              (match buf.id with | some i => i | none => "call_".data ++ natChars st.rng)
              nm fs none])) := by
  constructor
  · constructor
    · intro hne
      cases hget : mapGet st.toolCallBuffers idx with
      | none => simp [tryEmitBufferedToolCall, hget] at hne
      | some buf =>
        by_cases hname : buf.name.getD [] = []
        · simp [tryEmitBufferedToolCall, hget, hname] at hne
        · cases hp : tryParseJSONObject buf.args with
          | none => simp [tryEmitBufferedToolCall, hget, hname, hp] at hne
          | some fs => exact ⟨buf, rfl, hname, by rw [hp]; rfl⟩
    · rintro ⟨buf, hget, hname, hsome⟩
      rcases Option.isSome_iff_exists.mp hsome with ⟨fs, hp⟩
      simp [tryEmitBufferedToolCall, hget, hname, hp]
  · intro buf nm fs hget hname hnm hp
    have hgetd : buf.name.getD [] = nm := by rw [hname]; rfl
    simp only [tryEmitBufferedToolCall, hget, hgetd, hp, if_neg hnm]

/-- Witness for C3: a buffer with name `f`, no id and arguments that have
just become the object text, emitted at once with a synthesized id. -/
theorem claim3_witness :
    tryEmitBufferedToolCall 0
        ⟨[(0, ⟨none, some "f".data, "\x7b\x7d".data⟩)], [], false, false, [], none, [], [], 0⟩ =
      (⟨[], [0], false, false, [], none, [mkCanonKey "f".data "\x7b\x7d".data], [], 1⟩,
        [Event.toolCall "call_0".data "f".data [] none]) := by
  have h := (claim3_buffered_emission
    ⟨[(0, ⟨none, some "f".data, "\x7b\x7d".data⟩)], [], false, false, [], none, [], [], 0⟩ 0).2
    ⟨none, some "f".data, "\x7b\x7d".data⟩ "f".data [] rfl rfl (by decide) rfl
  exact h

/-- Frame delivering a complete structured tool call `search` with arguments
in one fragment (id `s1`, index 0). -/
def frameStructuredSearch : Str :=
  "data: \x7b\"choices\":[\x7b\"delta\":\x7b\"tool_calls\":[\x7b\"index\":0,\"id\":\"s1\",\"function\":\x7b\"name\":\"search\",\"arguments\":\"\x7b\\\"q\\\":1\x7d\"\x7d\x7d]\x7d\x7d]\x7d\n".data

/-- Parsed fields of the arguments object `q = 1`. -/
def qFields : List (Str × JVal) := [("q".data, JVal.jnum "1".data)]

/-- C6 (counterexample).  The claim says the structured and inline paths
never both emit a call for equivalent content; on the code the structured
path never consults the dedup ledgers and an indexed inline call only checks
the identity ledger, so after a structured emission of `search` with
arguments `q = 1` an inline `search:0` with the same arguments is emitted a
second time: the session reports two tool calls with identical name and
arguments. -/
theorem claim6_counterexample :
    (runSession [frameStructuredSearch, frameInlineSearch, frameDone] none).2 =
      [Event.toolCall "s1".data "search".data qFields none,
       Event.toolCall "tct_0".data "search".data qFields
         (some (InlineIdent.byIndex "search".data 0))] := by
  rfl

/-- Frame whose content splices a new sentinel out of fragments: removing the
embedded call-end marker from `<|tool_c<|tool_call_end|>all_end|>` leaves
exactly `<|tool_call_end|>`. -/
def frameSpliceText : Str :=
  "data: \x7b\"choices\":[\x7b\"delta\":\x7b\"content\":\"<|tool_c<|tool_call_end|>all_end|>\"\x7d\x7d]\x7d\n".data

/-- C8 (counterexample).  The claim says every reported text event is free of
all sentinel substrings for every input stream; on the code the two stripping
passes are single sweeps, so a removal can splice the surrounding fragments
into a new sentinel: this session reports a text event that is exactly the
call-end sentinel (which occurs in it as a substring at index 0). -/
theorem claim8_counterexample :
    (runSession [frameSpliceText, frameDone] none).2 = [Event.text ENDtok]
    ∧ subIndex ENDtok ENDtok = some 0 := by
  refine ⟨rfl, by decide⟩

/-- C7.  Early emission on both paths.  Structured: a fragment whose merge
leaves a named buffer with arguments that parse as a JSON object is emitted
at that very fold step (not delayed to a finish signal).  Inline: when the
active inline call's accumulated arguments first parse as a JSON object on a
content chunk that does not yet contain the end marker, the call is emitted
on that chunk (not delayed to the end marker), under a fresh identity. -/
theorem claim7_early_emission :
    (∀ (st : CoreState) (tc : JVal) (nm : Str) (fs : List (Str × JVal)),
      fragIndex tc ∉ st.completedToolCallIndices →
      (mergeToolCallFragment ((mapGet st.toolCallBuffers (fragIndex tc)).getD ⟨none, none, []⟩)
        tc).name = some nm →
      nm ≠ [] →
      tryParseJSONObject
        (mergeToolCallFragment ((mapGet st.toolCallBuffers (fragIndex tc)).getD ⟨none, none, []⟩)
          tc).args = some fs →
      (processToolCallFragment tc st).2 =
        [Event.toolCall
          (match (mergeToolCallFragment
              ((mapGet st.toolCallBuffers (fragIndex tc)).getD ⟨none, none, []⟩) tc).id with
            | some i => i
            | none => "call_".data ++ natChars st.rng)
          nm fs none])
    ∧ (∀ (st : CoreState) (input : Str) (act : ActiveTextTool) (i : Nat)
        (fs : List (Str × JVal)),
      st.textToolActive = some act → act.emitted = false → act.index = some i →
      st.textToolParserBuffer ++ input ≠ [] →
      subIndex (st.textToolParserBuffer ++ input) ENDtok = none →
      tryParseJSONObject (act.argBuffer ++ (st.textToolParserBuffer ++ input)) = some fs →
      mkIdKey (act.name.getD unknownTool) i ∉ st.emittedTextToolCallIds →
      (processTextContent input st).2.1 =
        [Event.toolCall ("tct_".data ++ natChars st.rng) (act.name.getD unknownTool) fs
          (some (InlineIdent.byIndex (act.name.getD unknownTool) i))]) := by
  constructor
  · intro st tc nm fs hidx hname hnm hp
    have hgetd : (mergeToolCallFragment
        ((mapGet st.toolCallBuffers (fragIndex tc)).getD ⟨none, none, []⟩) tc).name.getD [] = nm := by
      rw [hname]; rfl
    simp only [processToolCallFragment, if_neg hidx, tryEmitBufferedToolCall,
      mapGet_mapSet_self, hgetd, hp, if_neg hnm]
  · intro st input act i fs hact hem hix hne hsub hp hfresh
    cases hd : st.textToolParserBuffer ++ input with
    | nil => exact absurd hd hne
    | cons c rest =>
      rw [hd] at hsub hp
      simp only [processTextContent, hd, textLoop, hact, hsub, hem, emitTextToolCallIfValid,
        hp, hix, if_neg hfresh]
      simp

/-- Witness for C7: both conjuncts at concrete inputs - a one-fragment
structured call emitted at its fold step, and an inline call whose arguments
complete before any end marker emitted on that chunk. -/
theorem claim7_witness :
    (processToolCallFragment
        (JVal.jobj [("index".data, JVal.jnum "0".data),
          ("function".data, JVal.jobj [("name".data, JVal.jstr "f".data),
            ("arguments".data, JVal.jstr "\x7b\x7d".data)])])
        initCore).2 = [Event.toolCall "call_0".data "f".data [] none]
    ∧ (processTextContent "\x7b\"q\":1\x7d".data
        ⟨[], [], false, false, [], some ⟨some "search".data, some 0, [], false⟩, [], [], 0⟩).2.1 =
      [Event.toolCall "tct_0".data "search".data qFields
        (some (InlineIdent.byIndex "search".data 0))] := by
  refine ⟨claim7_early_emission.1 initCore _ "f".data [] (by decide) rfl (by decide) rfl, ?_⟩
  have h := claim7_early_emission.2
    ⟨[], [], false, false, [], some ⟨some "search".data, some 0, [], false⟩, [], [], 0⟩
    "\x7b\"q\":1\x7d".data ⟨some "search".data, some 0, [], false⟩ 0 qFields
    rfl rfl rfl (by decide) (by decide) rfl (by decide)
  exact h

/-! ### Chunking invariance (C2) -/

/-- Composition law of the line splitter: splitting `a ++ b` yields the
complete lines of `a` followed by the lines obtained from `a`'s retained tail
prepended to `b`, with that run's tail retained. -/
theorem breakLines_append (a b : Str) :
    breakLines (a ++ b) =
      ((breakLines a).1 ++ (breakLines ((breakLines a).2 ++ b)).1,
       (breakLines ((breakLines a).2 ++ b)).2) := by
  induction a with
  | nil => simp [breakLines]
  | cons c a ih =>
    by_cases hc : c = '\n'
    · subst hc
      simp [breakLines, ih]
    · simp only [List.cons_append, breakLines, if_neg hc]
      cases h : (breakLines a).1 with
      | nil =>
        cases hq : (breakLines ((breakLines a).2 ++ b)).1 <;>
          simp [breakLines, if_neg hc, ih, h, hq]
      | cons l ls => simp [ih, h]

/-- Processing a concatenation of line lists is processing them in sequence. -/
theorem processLines_append (xs ys : List Str) (st : CoreState) :
    processLines (xs ++ ys) st =
      ((processLines ys (processLines xs st).1).1,
       (processLines xs st).2 ++ (processLines ys (processLines xs st).1).2) := by
  induction xs generalizing st with
  | nil => simp [processLines]
  | cons l ls ih => simp [processLines, ih, List.append_assoc]

/-- Feeding `a ++ b` as one chunk equals feeding `a` then `b`, with the
event lists concatenated. -/
theorem feedChunk_comp (s : SessionState) (a b : Str) :
    feedChunk s (a ++ b) =
      ((feedChunk (feedChunk s a).1 b).1,
       (feedChunk s a).2 ++ (feedChunk (feedChunk s a).1 b).2) := by
  unfold feedChunk
  rw [← List.append_assoc, breakLines_append (s.lineBuffer ++ a) b]
  simp [processLines_append]

/-- Unfolding equation of `feedAll` on a cons cell. -/
theorem feedAll_cons (s : SessionState) (c : Str) (cs : List Str) :
    feedAll s (c :: cs) =
      ((feedAll (feedChunk s c).1 cs).1,
       (feedChunk s c).2 ++ (feedAll (feedChunk s c).1 cs).2) := rfl

/-- Feeding a single chunk. -/
theorem feedAll_single (s : SessionState) (x : Str) :
    feedAll s [x] = ((feedChunk s x).1, (feedChunk s x).2) := by
  simp [feedAll]

/-- Feeding a non-empty chunk list equals feeding its concatenation as one
chunk, from any session state. -/
theorem feedAll_cons_flatten (cs : List Str) (c : Str) (s : SessionState) :
    feedAll s (c :: cs) = feedAll s [c ++ cs.flatten] := by
  induction cs generalizing s c with
  | nil => simp
  | cons d cs ih =>
    rw [feedAll_cons, ih, feedAll_single, List.flatten_cons, feedAll_single]
    simp [feedChunk_comp]

/-- C2.  Chunking invariance: for every stream and every way of splitting its
text into contiguous chunks (including splits inside a JSON frame, inside a
line terminator, or inside an inline sentinel token), running the streaming
session on the chunks one at a time produces exactly the same final state and
the same ordered event sequence as feeding the entire stream as a single
chunk. -/
theorem claim2_chunking_invariance (chunks : List Str) :
    runSession chunks none = runSession [chunks.flatten] none := by
  cases chunks with
  | nil => rfl
  | cons c cs =>
    simp only [runSession, List.flatten_cons]
    rw [feedAll_cons_flatten]

/-! ### Sentinel stripping guarantees (C8 amended) -/

/-- The argument-end marker also removed by the second pass. -/
def argEndTok : Str := "<|tool_call_argument_end|>".data

/-- A generic section marker with stem `nm`. -/
def sectionTok (nm : Str) (isBegin : Bool) : Str :=
  '<' :: '|' :: (nm ++ (if isBegin then "_section_begin".data else "_section_end".data) ++ ['|', '>'])

/-- Section-pattern scan at a head other than `<` fails. -/
theorem pat1Len_head (c : Char) (rest : Str) (hc : c ≠ '<') : pat1Len (c :: rest) = none := by
  unfold pat1Len
  split
  · rename_i r heq
    simp at heq
    exact absurd heq.1 hc
  · rfl

/-- Tool-call-pattern scan at a head other than `<` fails. -/
theorem pat2Len_head (c : Char) (rest : Str) (hc : c ≠ '<') : pat2Len (c :: rest) = none := by
  simp [pat2Len, ARGBEGINtok, BEGINtok, ENDtok, listStartsWith, hc]

/-- Scanning text without `<` removes nothing. -/
theorem stripWith_id (f : Str → Option Nat)
    (hf : ∀ c rest, c ≠ '<' → f (c :: rest) = none) :
    ∀ s : Str, '<' ∉ s → stripWith f 0 s = s := by
  intro s
  induction s with
  | nil => intro _; rfl
  | cons c r ih =>
    intro hs
    have hc : c ≠ '<' := fun h => hs (h ▸ List.mem_cons_self c r)
    have hr : '<' ∉ r := fun h => hs (List.mem_cons_of_mem c h)
    simp [stripWith, hf c r hc, ih hr]

/-- Scanning copies a `<`-free prefix verbatim. -/
theorem stripWith_copy (f : Str → Option Nat)
    (hf : ∀ c rest, c ≠ '<' → f (c :: rest) = none) :
    ∀ u rest : Str, '<' ∉ u → stripWith f 0 (u ++ rest) = u ++ stripWith f 0 rest := by
  intro u
  induction u with
  | nil => intro rest _; rfl
  | cons c r ih =>
    intro rest hu
    have hc : c ≠ '<' := fun h => hu (h ▸ List.mem_cons_self c r)
    have hr : '<' ∉ r := fun h => hu (List.mem_cons_of_mem c h)
    simp [stripWith, hf c (r ++ rest) hc, ih rest hr]

/-- The skip counter consumes exactly the matched characters. -/
theorem stripWith_skip (f : Str → Option Nat) :
    ∀ x y : Str, stripWith f x.length (x ++ y) = stripWith f 0 y := by
  intro x
  induction x with
  | nil => intro y; rfl
  | cons c r ih => intro y; simp [stripWith, ih]

/-- Scanning a string that starts with a full match of length `tail.length + 1`
consumes the match and continues on the `<`-free remainder untouched. -/
theorem stripWith_match_head (f : Str → Option Nat)
    (hf : ∀ c rest, c ≠ '<' → f (c :: rest) = none)
    (t : Char) (tail v : Str) (hm : f (t :: (tail ++ v)) = some (tail.length + 1))
    (hv : '<' ∉ v) :
    stripWith f 0 ((t :: tail) ++ v) = v := by
  have : stripWith f 0 ((t :: tail) ++ v) = stripWith f tail.length (tail ++ v) := by
    simp [stripWith, hm]
  rw [this, stripWith_skip, stripWith_id f hf v hv]

/-- Scanning a string whose head yields no match and whose remaining token
characters are `<`-free copies the token and the `<`-free remainder. -/
theorem stripWith_copy_tok (f : Str → Option Nat)
    (hf : ∀ c rest, c ≠ '<' → f (c :: rest) = none)
    (t : Char) (tail v : Str) (hm : f (t :: (tail ++ v)) = none)
    (htail : '<' ∉ tail) (hv : '<' ∉ v) :
    stripWith f 0 ((t :: tail) ++ v) = (t :: tail) ++ v := by
  have : stripWith f 0 ((t :: tail) ++ v) = t :: stripWith f 0 (tail ++ v) := by
    simp [stripWith, hm]
  rw [this, stripWith_copy f hf tail v htail, stripWith_id f hf v hv]
  rfl

/-- Leading run of an all-satisfying list distributes over append. -/
theorem takeWhile_append_all (p : Char → Bool) (a b : Str) (h : a.all p = true) :
    (a ++ b).takeWhile p = a ++ b.takeWhile p := by
  induction a with
  | nil => rfl
  | cons c r ih =>
    simp only [List.all_cons, Bool.and_eq_true] at h
    simp [List.takeWhile, h.1, ih h.2]

/-- Every list ends with its own suffix. -/
theorem listEndsWith_append (a b : Str) : listEndsWith (a ++ b) b = true := by
  simp only [listEndsWith, List.length_append]
  rw [if_pos (by omega)]
  have : a.length + b.length - b.length = a.length := by omega
  rw [this, List.drop_left]
  simp

/-- A pattern starting with `<` does not occur in `<`-free text. -/
theorem subIndex_lt_free (s : Str) (hs : '<' ∉ s) (rest : Str) :
    subIndex s ('<' :: rest) = none := by
  unfold subIndex
  suffices h : ∀ i, subIndexGo ('<' :: rest) i s = none from h 0
  induction s with
  | nil => intro i; rfl
  | cons c r ih =>
    intro i
    have hc : c ≠ '<' := fun h => hs (h ▸ List.mem_cons_self c r)
    have hr : '<' ∉ r := fun h => hs (List.mem_cons_of_mem c h)
    simp [subIndexGo, listStartsWith, hc, ih hr]

/-- Every list is a run at the start of itself followed by anything. -/
theorem listStartsWith_append_self (x v : Str) : listStartsWith (x ++ v) x = true := by
  induction x with
  | nil =>
    show listStartsWith v [] = true
    cases v <;> rfl
  | cons c r ih => simp [listStartsWith, ih]

/-- First pass finds nothing at the head of any of the four tool-call markers. -/
theorem pat1Len_toolTok (v : Str) :
    pat1Len (BEGINtok ++ v) = none ∧ pat1Len (ARGBEGINtok ++ v) = none ∧
    pat1Len (ENDtok ++ v) = none ∧ pat1Len (argEndTok ++ v) = none := by
  refine ⟨?_, ?_, ?_, ?_⟩ <;>
    simp [pat1Len, BEGINtok, ARGBEGINtok, ENDtok, argEndTok, isSectionChar,
      takeWhile_append_all, listEndsWith]

/-- Second pass matches each tool-call marker at its head, with its length. -/
theorem pat2Len_toolTok (v : Str) :
    pat2Len (BEGINtok ++ v) = some BEGINtok.length ∧
    pat2Len (ARGBEGINtok ++ v) = some ARGBEGINtok.length ∧
    pat2Len (ENDtok ++ v) = some ENDtok.length ∧
    pat2Len (argEndTok ++ v) = some argEndTok.length := by
  refine ⟨?_, ?_, ?_, ?_⟩ <;>
    simp [pat2Len, BEGINtok, ARGBEGINtok, ENDtok, argEndTok, listStartsWith]

/-- First pass matches a section marker at its head, with its length. -/
theorem pat1Len_section (nm : Str) (b : Bool) (v : Str)
    (h1 : nm ≠ []) (h2 : nm.all isSectionChar = true) :
    pat1Len (sectionTok nm b ++ v) = some (sectionTok nm b).length := by
  have hsfx : ((if b then "_section_begin".data else "_section_end".data) : Str).all
      isSectionChar = true := by cases b <;> decide
  have hm : ((nm ++ (if b then "_section_begin".data else "_section_end".data) ++ ['|', '>'])
        ++ v).takeWhile isSectionChar
      = nm ++ (if b then "_section_begin".data else "_section_end".data) := by
    rw [List.append_assoc, List.append_assoc,
      takeWhile_append_all isSectionChar nm _ h2,
      takeWhile_append_all isSectionChar _ _ hsfx]
    cases b <;> simp [List.takeWhile, isSectionChar]
  have hlen : 0 < nm.length := List.length_pos.mpr h1
  cases b with
  | true =>
    simp only [sectionTok, if_pos rfl] at hm ⊢
    unfold pat1Len
    simp only [List.cons_append, hm]
    rw [if_pos ?hcond]
    · simp [List.length_append]
      omega
    case hcond =>
      refine ⟨Or.inl ⟨listEndsWith_append nm _, by simp [List.length_append]; omega⟩, ?_⟩
      rw [List.append_assoc, List.drop_left]
      exact listStartsWith_append_self ['|', '>'] v
  | false =>
    simp only [sectionTok, if_neg (by decide : ¬(false = true))] at hm ⊢
    unfold pat1Len
    simp only [List.cons_append, hm]
    rw [if_pos ?hcond2]
    · simp [List.length_append]
      omega
    case hcond2 =>
      refine ⟨Or.inr ⟨listEndsWith_append nm _, by simp [List.length_append]; omega⟩, ?_⟩
      rw [List.append_assoc, List.drop_left]
      exact listStartsWith_append_self ['|', '>'] v

/-- A literal marker that the first pass ignores and the second pass matches
is removed exactly from a `<`-free context. -/
theorem strip_literal_tok (u v : Str) (t : Char) (tail : Str)
    (h1 : pat1Len (t :: (tail ++ v)) = none)
    (h2 : pat2Len (t :: (tail ++ v)) = some (tail.length + 1))
    (htail : '<' ∉ tail) (hu : '<' ∉ u) (hv : '<' ∉ v) :
    stripControlTokens (u ++ (t :: tail) ++ v) = u ++ v := by
  unfold stripControlTokens
  rw [List.append_assoc,
    stripWith_copy pat1Len pat1Len_head u _ hu,
    stripWith_copy_tok pat1Len pat1Len_head t tail v h1 htail hv,
    stripWith_copy pat2Len pat2Len_head u _ hu,
    stripWith_match_head pat2Len pat2Len_head t tail v h2 hv]

/-- A section marker, matched whole by the first pass, is removed exactly
from a `<`-free context. -/
theorem strip_section_tok (u v nm : Str) (b : Bool)
    (h1 : nm ≠ []) (h2 : nm.all isSectionChar = true) (hu : '<' ∉ u) (hv : '<' ∉ v) :
    stripControlTokens (u ++ sectionTok nm b ++ v) = u ++ v := by
  have hm := pat1Len_section nm b v h1 h2
  have hm2 : pat1Len ('<' ::
      (('|' :: (nm ++ (if b then "_section_begin".data else "_section_end".data) ++ ['|', '>']))
        ++ v)) =
      some ((('|' :: (nm ++ (if b then "_section_begin".data else "_section_end".data) ++
        ['|', '>']))).length + 1) := by
    simpa [sectionTok] using hm
  unfold stripControlTokens
  show stripWith pat2Len 0 (stripWith pat1Len 0 ((u ++ ('<' ::
    ('|' :: (nm ++ (if b then "_section_begin".data else "_section_end".data) ++ ['|', '>'])))
    ++ v))) = u ++ v
  rw [List.append_assoc,
    stripWith_copy pat1Len pat1Len_head u _ hu,
    stripWith_match_head pat1Len pat1Len_head '<' _ v hm2 hv,
    stripWith_copy pat2Len pat2Len_head u v hu,
    stripWith_id pat2Len pat2Len_head v hv]

/-- C8 (amended).  The positive core of sentinel stripping: (i) text without
the character `<` passes through `stripControlTokens` unchanged, (ii) no
sentinel - every sentinel starts with `<` - occurs as a substring of such
text, and (iii) one complete marker token (a tool-call sentinel, the
argument-end marker, or any section marker) embedded in otherwise `<`-free
text is removed exactly, the surrounding text surfacing verbatim.  The
accompanying counterexample shows the claim's universal form fails: a
removal can splice the surrounding fragments into a new sentinel. -/
theorem claim8_amended :
    (∀ s : Str, '<' ∉ s → stripControlTokens s = s)
    ∧ (∀ s rest : Str, '<' ∉ s → subIndex s ('<' :: rest) = none)
    ∧ (∀ u v tok : Str,
        (tok = BEGINtok ∨ tok = ARGBEGINtok ∨ tok = ENDtok ∨ tok = argEndTok ∨
          ∃ nm b, nm ≠ [] ∧ nm.all isSectionChar = true ∧ tok = sectionTok nm b) →
        '<' ∉ u → '<' ∉ v → stripControlTokens (u ++ tok ++ v) = u ++ v) := by
  refine ⟨?_, ?_, ?_⟩
  · intro s hs
    unfold stripControlTokens
    rw [stripWith_id pat1Len pat1Len_head s hs, stripWith_id pat2Len pat2Len_head s hs]
  · exact fun s rest hs => subIndex_lt_free s hs rest
  · rintro u v tok (rfl | rfl | rfl | rfl | ⟨nm, b, h1, h2, rfl⟩) hu hv
    · exact strip_literal_tok u v '<' "|tool_call_begin|>".data
        ((pat1Len_toolTok v).1) ((pat2Len_toolTok v).1) (by decide) hu hv
    · exact strip_literal_tok u v '<' "|tool_call_argument_begin|>".data
        ((pat1Len_toolTok v).2.1) ((pat2Len_toolTok v).2.1) (by decide) hu hv
    · exact strip_literal_tok u v '<' "|tool_call_end|>".data
        ((pat1Len_toolTok v).2.2.1) ((pat2Len_toolTok v).2.2.1) (by decide) hu hv
    · exact strip_literal_tok u v '<' "|tool_call_argument_end|>".data
        ((pat1Len_toolTok v).2.2.2) ((pat2Len_toolTok v).2.2.2) (by decide) hu hv
    · exact strip_section_tok u v nm b h1 h2 hu hv

/-- Witness for C8 (amended): concrete `<`-free context around a section
marker and around the call-begin marker, both stripped exactly, and the
fixed-point and no-occurrence parts at concrete text. -/
theorem claim8_witness :
    stripControlTokens "ab".data = "ab".data
    ∧ subIndex "ab".data ENDtok = none
    ∧ stripControlTokens ("a-".data ++ sectionTok "x".data true ++ "-b".data) =
      "a-".data ++ "-b".data
    ∧ stripControlTokens ("a-".data ++ BEGINtok ++ "-b".data) = "a-".data ++ "-b".data := by
  refine ⟨claim8_amended.1 "ab".data (by decide), ?_, ?_, ?_⟩
  · exact claim8_amended.2.1 "ab".data "|tool_call_end|>".data (by decide)
  · exact claim8_amended.2.2 "a-".data "-b".data (sectionTok "x".data true)
      (Or.inr (Or.inr (Or.inr (Or.inr ⟨"x".data, true, by decide, by decide, rfl⟩))))
      (by decide) (by decide)
  · exact claim8_amended.2.2 "a-".data "-b".data BEGINtok (Or.inl rfl) (by decide) (by decide)

/-! ### Inline dedup ledger invariant (C6 amended) -/

/-- Dedup identities of the inline-path tool calls among a list of events. -/
def inlineIdentsOf : List Event → List InlineIdent
  | [] => []
  | Event.toolCall _ _ _ (some il) :: r => il :: inlineIdentsOf r
  | _ :: r => inlineIdentsOf r

/-- Membership of an identity in the ledger that guards it. -/
def identInLedger (st : CoreState) : InlineIdent → Prop
  | InlineIdent.byIndex nm i => mkIdKey nm i ∈ st.emittedTextToolCallIds
  | InlineIdent.byKey nm c => mkCanonKey nm c ∈ st.emittedTextToolCallKeys

/-- Session invariant: every inline identity emitted so far is recorded in
its ledger, and no identity was emitted twice. -/
def InlineInv (st : CoreState) (ils : List InlineIdent) : Prop :=
  (∀ il ∈ ils, identInLedger st il) ∧ ils.Nodup

/-- Identities of concatenated event lists. -/
theorem inlineIdentsOf_append (a b : List Event) :
    inlineIdentsOf (a ++ b) = inlineIdentsOf a ++ inlineIdentsOf b := by
  induction a with
  | nil => rfl
  | cons e r ih =>
    cases e with
    | text s => simpa [inlineIdentsOf] using ih
    | thinking s i m => simpa [inlineIdentsOf] using ih
    | toolCall id nm args il =>
      cases il with
      | none => simpa [inlineIdentsOf] using ih
      | some il0 => simpa [inlineIdentsOf] using ih

/-- Adding to a set keeps old members. -/
theorem mem_setAdd {α : Type} [DecidableEq α] (l : List α) (x y : α) (h : x ∈ l) :
    x ∈ setAdd l y := by
  unfold setAdd
  by_cases hy : y ∈ l
  · simpa [hy]
  · simp [hy, List.mem_append, h]

/-- The added element is a member. -/
theorem mem_setAdd_self {α : Type} [DecidableEq α] (l : List α) (x : α) : x ∈ setAdd l x := by
  unfold setAdd
  by_cases hx : x ∈ l <;> simp [hx]

/-- Ledger membership transfers along ledger growth. -/
theorem identInLedger_mono (st st' : CoreState)
    (hids : ∀ x, x ∈ st.emittedTextToolCallIds → x ∈ st'.emittedTextToolCallIds)
    (hkeys : ∀ x, x ∈ st.emittedTextToolCallKeys → x ∈ st'.emittedTextToolCallKeys)
    (il : InlineIdent) (h : identInLedger st il) : identInLedger st' il := by
  cases il with
  | byIndex nm i => exact hids _ h
  | byKey nm c => exact hkeys _ h

/-- Invariant transfer to a state with the same ledgers. -/
theorem inlineInv_eqLedgers (st st' : CoreState) (ils : List InlineIdent)
    (hids : st'.emittedTextToolCallIds = st.emittedTextToolCallIds)
    (hkeys : st'.emittedTextToolCallKeys = st.emittedTextToolCallKeys)
    (h : InlineInv st ils) : InlineInv st' ils :=
  ⟨fun il hil => identInLedger_mono st st' (fun x hx => hids ▸ hx) (fun x hx => hkeys ▸ hx)
    il (h.1 il hil), h.2⟩

/-- Invariant transfer along a step that only grows the ledgers and emits no
inline-annotated events. -/
theorem inlineInv_extend (st st' : CoreState) (ils : List InlineIdent) (evs : List Event)
    (hids : ∀ x, x ∈ st.emittedTextToolCallIds → x ∈ st'.emittedTextToolCallIds)
    (hkeys : ∀ x, x ∈ st.emittedTextToolCallKeys → x ∈ st'.emittedTextToolCallKeys)
    (hevs : inlineIdentsOf evs = [])
    (h : InlineInv st ils) : InlineInv st' (ils ++ inlineIdentsOf evs) := by
  rw [hevs, List.append_nil]
  exact ⟨fun il hil => identInLedger_mono st st' hids hkeys il (h.1 il hil), h.2⟩

/-- Inline emission preserves the ledger invariant: a suppressed attempt
changes nothing, and a successful emission emits a fresh identity and records
it. -/
theorem emit_pres (st : CoreState) (call : ActiveTextTool) (argText : Str)
    (ils : List InlineIdent) (h : InlineInv st ils) :
    InlineInv (emitTextToolCallIfValid st call argText).2.1
      (ils ++ inlineIdentsOf (emitTextToolCallIfValid st call argText).2.2) := by
  unfold emitTextToolCallIfValid
  cases hp : tryParseJSONObject argText with
  | none => simpa [inlineIdentsOf] using h
  | some fs =>
    cases hix : call.index with
    | some i =>
      by_cases hmem :
          mkIdKey (call.name.getD unknownTool) i ∈ st.emittedTextToolCallIds
      · simpa [hmem, inlineIdentsOf] using h
      · simp only [if_neg hmem]
        constructor
        · intro il hil
          simp only [inlineIdentsOf, List.mem_append, List.mem_cons,
            List.not_mem_nil, or_false] at hil
          rcases hil with h1 | h2
          · exact identInLedger_mono st _ (fun x hx => mem_setAdd _ x _ hx)
              (fun x hx => mem_setAdd _ x _ hx) il (h.1 il h1)
          · subst h2
            exact mem_setAdd_self _ _
        · have hnotin : InlineIdent.byIndex (call.name.getD unknownTool) i ∉ ils := by
            intro hin
            exact hmem (h.1 _ hin)
          simp only [inlineIdentsOf]
          exact List.Nodup.append h.2 (List.nodup_singleton _)
            (by
              intro a ha hb
              simp only [List.mem_singleton] at hb
              subst hb
              exact hnotin ha)
    | none =>
      by_cases hmem :
          mkCanonKey (call.name.getD unknownTool)
            (canonGo (argText.length + 1) (JVal.jobj fs)) ∈ st.emittedTextToolCallKeys
      · simpa [hmem, inlineIdentsOf] using h
      · simp only [if_neg hmem]
        constructor
        · intro il hil
          simp only [inlineIdentsOf, List.mem_append, List.mem_cons,
            List.not_mem_nil, or_false] at hil
          rcases hil with h1 | h2
          · apply identInLedger_mono st
            · exact fun x hx => hx
            · exact fun x hx => mem_setAdd _ x _ hx
            · exact h.1 il h1
          · subst h2
            exact mem_setAdd_self _ _
        · have hnotin : InlineIdent.byKey (call.name.getD unknownTool)
              (canonGo (argText.length + 1) (JVal.jobj fs)) ∉ ils := by
            intro hin
            exact hmem (h.1 _ hin)
          simp only [inlineIdentsOf]
          exact List.Nodup.append h.2 (List.nodup_singleton _)
            (by
              intro a ha hb
              simp only [List.mem_singleton] at hb
              subst hb
              exact hnotin ha)

/-- Invariant transfer along identity-ledger-preserving key growth. -/
theorem inlineInv_keysGrow (st st' : CoreState) (ils : List InlineIdent)
    (hids : st'.emittedTextToolCallIds = st.emittedTextToolCallIds)
    (hkeys : ∀ x, x ∈ st.emittedTextToolCallKeys → x ∈ st'.emittedTextToolCallKeys)
    (h : InlineInv st ils) : InlineInv st' ils :=
  ⟨fun il hil => identInLedger_mono st st' (fun x hx => hids ▸ hx) hkeys il (h.1 il hil), h.2⟩

/-- Structured early emission preserves the ledger invariant (it only grows
the key ledger and its events carry no inline identity). -/
theorem tryEmit_pres (idx : Nat) (st : CoreState) (ils : List InlineIdent)
    (h : InlineInv st ils) :
    InlineInv (tryEmitBufferedToolCall idx st).1
      (ils ++ inlineIdentsOf (tryEmitBufferedToolCall idx st).2) := by
  cases hget : mapGet st.toolCallBuffers idx with
  | none => simpa [tryEmitBufferedToolCall, hget, inlineIdentsOf] using h
  | some buf =>
    by_cases hname : buf.name.getD [] = []
    · simpa [tryEmitBufferedToolCall, hget, hname, inlineIdentsOf] using h
    · cases hp : tryParseJSONObject buf.args with
      | none => simpa [tryEmitBufferedToolCall, hget, hname, hp, inlineIdentsOf] using h
      | some fs =>
        simp only [tryEmitBufferedToolCall, hget, if_neg hname, hp]
        rw [show inlineIdentsOf [Event.toolCall
            (match buf.id with | some i => i | none => "call_".data ++ natChars st.rng)
            (buf.name.getD []) fs none] = [] from rfl, List.append_nil]
        apply inlineInv_keysGrow st
        · rfl
        · exact fun x hx => mem_setAdd _ x _ hx
        · exact h

/-- The flush worker preserves the ledger invariant. -/
theorem flushGo_pres : ∀ (entries : List (Nat × ToolCallBuffer)) (strict : Bool)
    (st : CoreState) (evs : List Event) (ils : List InlineIdent),
    InlineInv st (ils ++ inlineIdentsOf evs) →
    InlineInv (flushGo entries strict st evs).1
      (ils ++ inlineIdentsOf (flushGo entries strict st evs).2.1) := by
  intro entries
  induction entries with
  | nil => intro strict st evs ils h; exact h
  | cons e rest ih =>
    intro strict st evs ils h
    obtain ⟨idx, buf⟩ := e
    cases hp : tryParseJSONObject buf.args with
    | none =>
      cases strict with
      | true => simpa [flushGo, hp] using h
      | false =>
        simp only [flushGo, hp, Bool.false_eq_true, if_false]
        exact ih false st evs ils h
    | some fs =>
      simp only [flushGo, hp]
      apply ih
      rw [inlineIdentsOf_append,
        show inlineIdentsOf [Event.toolCall
          (match buf.id with | some i => i | none => "call_".data ++ natChars st.rng)
          (buf.name.getD unknownTool) fs none] = [] from rfl, List.append_nil]
      apply inlineInv_keysGrow st
      · rfl
      · exact fun x hx => mem_setAdd _ x _ hx
      · exact h

/-- The buffer flush preserves the ledger invariant. -/
theorem flush_pres (strict : Bool) (st : CoreState) (ils : List InlineIdent)
    (h : InlineInv st ils) :
    InlineInv (flushToolCallBuffers strict st).1
      (ils ++ inlineIdentsOf (flushToolCallBuffers strict st).2.1) := by
  unfold flushToolCallBuffers
  by_cases hb : st.toolCallBuffers = []
  · simpa [hb, inlineIdentsOf] using h
  · simp only [if_neg hb]
    exact flushGo_pres st.toolCallBuffers strict st [] ils (by simpa [inlineIdentsOf] using h)

/-- Flushing the still-active inline call preserves the ledger invariant. -/
theorem flushActive_pres (st : CoreState) (ils : List InlineIdent) (h : InlineInv st ils) :
    InlineInv (flushActiveTextToolCall st).1
      (ils ++ inlineIdentsOf (flushActiveTextToolCall st).2) := by
  cases hact : st.textToolActive with
  | none => simpa [flushActiveTextToolCall, hact, inlineIdentsOf] using h
  | some act =>
    cases hp : tryParseJSONObject act.argBuffer with
    | none => simpa [flushActiveTextToolCall, hact, hp, inlineIdentsOf] using h
    | some fs =>
      simp only [flushActiveTextToolCall, hact, hp]
      apply inlineInv_eqLedgers (emitTextToolCallIfValid st act act.argBuffer).2.1
      · rfl
      · rfl
      · exact emit_pres st act act.argBuffer ils h

/-- One structured fragment preserves the ledger invariant. -/
theorem fragment_pres (tc : JVal) (st : CoreState) (ils : List InlineIdent)
    (h : InlineInv st ils) :
    InlineInv (processToolCallFragment tc st).1
      (ils ++ inlineIdentsOf (processToolCallFragment tc st).2) := by
  unfold processToolCallFragment
  by_cases hidx : fragIndex tc ∈ st.completedToolCallIndices
  · simpa [hidx, inlineIdentsOf] using h
  · simp only [if_neg hidx]
    apply tryEmit_pres
    apply inlineInv_eqLedgers st
    · rfl
    · rfl
    · exact h

/-- A list of structured fragments preserves the ledger invariant. -/
theorem fragments_pres : ∀ (tcs : List JVal) (st : CoreState) (ils : List InlineIdent),
    InlineInv st ils →
    InlineInv (processToolCallFragments tcs st).1
      (ils ++ inlineIdentsOf (processToolCallFragments tcs st).2) := by
  intro tcs
  induction tcs with
  | nil => intro st ils h; simpa [processToolCallFragments, inlineIdentsOf] using h
  | cons tc rest ih =>
    intro st ils h
    simp only [processToolCallFragments]
    rw [inlineIdentsOf_append, ← List.append_assoc]
    exact ih _ _ (fragment_pres tc st ils h)

/-- Emission from a state with adjusted active-call field, followed by
another adjustment of that field, preserves the ledger invariant. -/
theorem emit_pres_setActive (st : CoreState) (call : ActiveTextTool) (argText : Str)
    (o o2 : Option ActiveTextTool) (ils : List InlineIdent)
    (h : InlineInv st ils) :
    InlineInv { (emitTextToolCallIfValid { st with textToolActive := o } call argText).2.1
        with textToolActive := o2 }
      (ils ++ inlineIdentsOf
        (emitTextToolCallIfValid { st with textToolActive := o } call argText).2.2) := by
  apply inlineInv_eqLedgers
    (emitTextToolCallIfValid { st with textToolActive := o } call argText).2.1
  · rfl
  · rfl
  · apply emit_pres
    apply inlineInv_eqLedgers st
    · rfl
    · rfl
    · exact h

/-- The inline scanning loop preserves the ledger invariant (the invariant's
identity list tracks the loop's event accumulator). -/
theorem textLoop_pres : ∀ (fuel : Nat) (data : Str) (st : CoreState) (vo : Str)
    (evs : List Event) (ea : Bool) (ils : List InlineIdent),
    InlineInv st (ils ++ inlineIdentsOf evs) →
    InlineInv (textLoop fuel data st vo evs ea).st
      (ils ++ inlineIdentsOf (textLoop fuel data st vo evs ea).events) := by
  intro fuel
  induction fuel with
  | zero => intro data st vo evs ea ils h; exact h
  | succ fuel ih =>
    intro data st vo evs ea ils h
    cases data with
    | nil => simpa [textLoop] using h
    | cons c rest =>
      cases hact : st.textToolActive with
      | none =>
        cases hsub : subIndex (c :: rest) BEGINtok with
        | none =>
          by_cases hk : 0 < hangingBeginLen (c :: rest)
          · simp only [textLoop, hact, hsub, if_pos hk]
            apply inlineInv_eqLedgers st
            · rfl
            · rfl
            · exact h
          · simp only [textLoop, hact, hsub, if_neg hk]
            exact h
        | some b =>
          cases ha : subIndex ((c :: rest).drop (b + BEGINtok.length)) ARGBEGINtok with
          | some ai =>
            cases he : subIndex ((c :: rest).drop (b + BEGINtok.length)) ENDtok with
            | none =>
              simp only [textLoop, hact, hsub, ha, he]
              apply ih
              apply inlineInv_eqLedgers st
              · rfl
              · rfl
              · exact h
            | some ei =>
              by_cases hlt : ai < ei
              · simp only [textLoop, hact, hsub, ha, he, if_pos hlt]
                apply ih
                apply inlineInv_eqLedgers st
                · rfl
                · rfl
                · exact h
              · simp only [textLoop, hact, hsub, ha, he, if_neg hlt]
                apply ih
                rw [inlineIdentsOf_append, ← List.append_assoc]
                apply emit_pres_setActive st
                exact h
          | none =>
            cases he : subIndex ((c :: rest).drop (b + BEGINtok.length)) ENDtok with
            | none =>
              simp only [textLoop, hact, hsub, ha, he]
              apply inlineInv_eqLedgers st
              · rfl
              · rfl
              · exact h
            | some ei =>
              simp only [textLoop, hact, hsub, ha, he]
              apply ih
              rw [inlineIdentsOf_append, ← List.append_assoc]
              apply emit_pres_setActive st
              exact h
      | some act =>
        cases hend : subIndex (c :: rest) ENDtok with
        | none =>
          cases hem : act.emitted with
          | false =>
            simp only [textLoop, hact, hend, hem, eq_self_iff_true, Bool.true_eq_false, if_true, if_false]
            rw [inlineIdentsOf_append, ← List.append_assoc]
            apply emit_pres_setActive st
            exact h
          | true =>
            simp only [textLoop, hact, hend, hem, eq_self_iff_true, Bool.true_eq_false, if_true, if_false]
            apply inlineInv_eqLedgers st
            · rfl
            · rfl
            · exact h
        | some e2 =>
          cases hem : act.emitted with
          | false =>
            simp only [textLoop, hact, hend, hem, eq_self_iff_true, Bool.true_eq_false, if_true, if_false]
            apply ih
            rw [inlineIdentsOf_append, ← List.append_assoc]
            apply emit_pres_setActive st
            exact h
          | true =>
            simp only [textLoop, hact, hend, hem, eq_self_iff_true, Bool.true_eq_false, if_true, if_false]
            apply ih
            apply inlineInv_eqLedgers st
            · rfl
            · rfl
            · exact h

/-- Thinking events carry no inline identity. -/
theorem thinkStepEvs_idents (choice : JVal) (deltaObj : Option JVal) :
    inlineIdentsOf (thinkStepEvs choice deltaObj) = [] := by
  unfold thinkStepEvs
  cases nullish (getField choice ("thinking".data))
      (deltaObj.bind (fun d => getField d ("thinking".data))) with
  | none => rfl
  | some v =>
    by_cases ht : (thinkingParts v).1 ≠ [] <;> simp [ht, inlineIdentsOf]

/-- The inline scanner entry point preserves the ledger invariant. -/
theorem processTextContent_pres (input : Str) (st : CoreState) (ils : List InlineIdent)
    (h : InlineInv st ils) :
    InlineInv (processTextContent input st).1
      (ils ++ inlineIdentsOf (processTextContent input st).2.1) := by
  have h0 : InlineInv st (ils ++ inlineIdentsOf ([] : List Event)) := by
    simpa [inlineIdentsOf] using h
  have hl := textLoop_pres ((st.textToolParserBuffer ++ input).length + 1)
    (st.textToolParserBuffer ++ input) st [] [] false ils h0
  unfold processTextContent
  by_cases hv : (textLoop ((st.textToolParserBuffer ++ input).length + 1)
      (st.textToolParserBuffer ++ input) st [] [] false).visibleOut ≠ []
  · simp only [if_pos hv]
    rw [inlineIdentsOf_append]
    simp only [inlineIdentsOf, List.append_nil]
    apply inlineInv_eqLedgers (textLoop ((st.textToolParserBuffer ++ input).length + 1)
      (st.textToolParserBuffer ++ input) st [] [] false).st
    · rfl
    · rfl
    · exact hl
  · simp only [if_neg hv]
    apply inlineInv_eqLedgers (textLoop ((st.textToolParserBuffer ++ input).length + 1)
      (st.textToolParserBuffer ++ input) st [] [] false).st
    · rfl
    · rfl
    · exact hl

/-- The content step preserves the ledger invariant. -/
theorem contentStep_pres (deltaObj : Option JVal) (st : CoreState) (ils : List InlineIdent)
    (h : InlineInv st ils) :
    InlineInv (contentStep deltaObj st).1
      (ils ++ inlineIdentsOf (contentStep deltaObj st).2) := by
  unfold contentStep
  cases hcv : deltaObj.bind (fun d => getField d ("content".data)) with
  | none => simpa [inlineIdentsOf] using h
  | some v =>
    by_cases ht : jsTruthy v
    · simp only [if_pos ht]
      apply inlineInv_eqLedgers (processTextContent (jsToString v) st).1
      · rfl
      · rfl
      · exact processTextContent_pres (jsToString v) st ils h
    · simp only [if_neg ht]
      simpa [inlineIdentsOf] using h

/-- The tool-calls step preserves the ledger invariant. -/
theorem toolCallsStep_pres (deltaObj : Option JVal) (st1 : CoreState) (ils : List InlineIdent)
    (h : InlineInv st1 ils) :
    InlineInv (toolCallsStep deltaObj st1).1
      (ils ++ inlineIdentsOf (toolCallsStep deltaObj st1).2.1) := by
  unfold toolCallsStep
  cases hcv : deltaObj.bind (fun d => getField d ("tool_calls".data)) with
  | none => simpa [inlineIdentsOf] using h
  | some v =>
    by_cases ht : jsTruthy v
    · simp only [if_pos ht]
      have hhint : ∀ (st2 : CoreState), InlineInv st1 ils →
          (st2 = st1 ∨ st2 = { st1 with emittedBeginToolCallsHint := true }) →
          InlineInv st2 ils := by
        rintro st2 h2 (rfl | rfl)
        · exact h2
        · apply inlineInv_eqLedgers st1 _ ils rfl rfl h2
      cases v with
      | jarr xs =>
        simp only []
        by_cases hon : (!st1.emittedBeginToolCallsHint && st1.hasEmittedAssistantText &&
            decide (0 < xs.length)) = true
        · simp only [hon, if_true]
          rw [inlineIdentsOf_append,
            show inlineIdentsOf [Event.text [' ']] = [] from rfl, List.nil_append]
          exact fragments_pres xs _ ils (hhint _ h (Or.inr rfl))
        · simp only [Bool.not_eq_true] at hon
          simp only [hon, Bool.false_eq_true, if_false]
          rw [List.nil_append]
          exact fragments_pres xs _ ils (hhint _ h (Or.inl rfl))
      | jstr sc =>
        simp only []
        by_cases hon : (!st1.emittedBeginToolCallsHint && st1.hasEmittedAssistantText &&
            decide (0 < sc.length)) = true
        · simp only [hon, if_true]
          rw [inlineIdentsOf_append,
            show inlineIdentsOf [Event.text [' ']] = [] from rfl, List.nil_append]
          exact fragments_pres (sc.map (fun c => JVal.jstr [c])) _ ils (hhint _ h (Or.inr rfl))
        · simp only [Bool.not_eq_true] at hon
          simp only [hon, Bool.false_eq_true, if_false]
          rw [List.nil_append]
          exact fragments_pres (sc.map (fun c => JVal.jstr [c])) _ ils (hhint _ h (Or.inl rfl))
      | jnull => simp [jsTruthy] at ht
      | jbool b =>
        by_cases hon : (!st1.emittedBeginToolCallsHint && st1.hasEmittedAssistantText &&
            decide (0 < (0 : Nat))) = true
        · simp only [hon, if_true]
          rw [show inlineIdentsOf [Event.text [' ']] = [] from rfl, List.append_nil]
          exact hhint _ h (Or.inr rfl)
        · simp only [Bool.not_eq_true] at hon
          simp only [hon, Bool.false_eq_true, if_false]
          rw [show inlineIdentsOf ([] : List Event) = [] from rfl, List.append_nil]
          exact hhint _ h (Or.inl rfl)
      | jnum lex =>
        by_cases hon : (!st1.emittedBeginToolCallsHint && st1.hasEmittedAssistantText &&
            decide (0 < (0 : Nat))) = true
        · simp only [hon, if_true]
          rw [show inlineIdentsOf [Event.text [' ']] = [] from rfl, List.append_nil]
          exact hhint _ h (Or.inr rfl)
        · simp only [Bool.not_eq_true] at hon
          simp only [hon, Bool.false_eq_true, if_false]
          rw [show inlineIdentsOf ([] : List Event) = [] from rfl, List.append_nil]
          exact hhint _ h (Or.inl rfl)
      | jobj fs =>
        by_cases hon : (!st1.emittedBeginToolCallsHint && st1.hasEmittedAssistantText &&
            decide (0 < (0 : Nat))) = true
        · simp only [hon, if_true]
          rw [show inlineIdentsOf [Event.text [' ']] = [] from rfl, List.append_nil]
          exact hhint _ h (Or.inr rfl)
        · simp only [Bool.not_eq_true] at hon
          simp only [hon, Bool.false_eq_true, if_false]
          rw [show inlineIdentsOf ([] : List Event) = [] from rfl, List.append_nil]
          exact hhint _ h (Or.inl rfl)
    · simp only [if_neg ht]
      simpa [inlineIdentsOf] using h

/-- The finish step preserves the ledger invariant. -/
theorem finishStep_pres (choice : JVal) (st3 : CoreState) (ils : List InlineIdent)
    (h : InlineInv st3 ils) :
    InlineInv (finishStep choice st3).1
      (ils ++ inlineIdentsOf (finishStep choice st3).2.1) := by
  unfold finishStep
  cases hf : getField choice ("finish_reason".data) with
  | none => simpa [inlineIdentsOf] using h
  | some v =>
    cases v with
    | jstr s =>
      by_cases hs : s = "tool_calls".data ∨ s = "stop".data
      · simp only [if_pos hs]
        exact flush_pres true st3 ils h
      · simp only [if_neg hs]
        simpa [inlineIdentsOf] using h
    | jnull => simpa [inlineIdentsOf] using h
    | jbool b => simpa [inlineIdentsOf] using h
    | jnum lex => simpa [inlineIdentsOf] using h
    | jarr xs => simpa [inlineIdentsOf] using h
    | jobj fs => simpa [inlineIdentsOf] using h

/-- Delta processing preserves the ledger invariant. -/
theorem processDelta_pres (delta : JVal) (st : CoreState) (ils : List InlineIdent)
    (h : InlineInv st ils) :
    InlineInv (processDelta delta st).1
      (ils ++ inlineIdentsOf (processDelta delta st).2.1) := by
  unfold processDelta
  cases hch : (match getField delta ("choices".data) with
    | some (JVal.jarr (c :: _)) => some c
    | _ => none) with
  | none => simpa [inlineIdentsOf] using h
  | some choice =>
    by_cases ht : jsTruthy choice = false
    · simp only [if_pos ht]
      simpa [inlineIdentsOf] using h
    · simp only [if_neg ht]
      have h1 := contentStep_pres (getField choice ("delta".data)) st ils h
      have h2 := toolCallsStep_pres (getField choice ("delta".data))
        (contentStep (getField choice ("delta".data)) st).1
        (ils ++ inlineIdentsOf (contentStep (getField choice ("delta".data)) st).2) h1
      cases herr : (toolCallsStep (getField choice ("delta".data))
          (contentStep (getField choice ("delta".data)) st).1).2.2 with
      | some e =>
        simp only [herr]
        rw [inlineIdentsOf_append, inlineIdentsOf_append, thinkStepEvs_idents, List.nil_append,
          ← List.append_assoc]
        exact h2
      | none =>
        simp only [herr]
        have h3 := finishStep_pres choice
          (toolCallsStep (getField choice ("delta".data))
            (contentStep (getField choice ("delta".data)) st).1).1
          ((ils ++ inlineIdentsOf (contentStep (getField choice ("delta".data)) st).2) ++
            inlineIdentsOf (toolCallsStep (getField choice ("delta".data))
              (contentStep (getField choice ("delta".data)) st).1).2.1) h2
        rw [inlineIdentsOf_append, inlineIdentsOf_append, inlineIdentsOf_append,
          thinkStepEvs_idents, List.nil_append, ← List.append_assoc, ← List.append_assoc]
        exact h3

/-- One SSE line preserves the ledger invariant. -/
theorem processLine_pres (line : Str) (st : CoreState) (ils : List InlineIdent)
    (h : InlineInv st ils) :
    InlineInv (processLine line st).1 (ils ++ inlineIdentsOf (processLine line st).2) := by
  unfold processLine
  by_cases hd : listStartsWith line ("data: ".data) = false
  · simp only [if_pos hd]
    simpa [inlineIdentsOf] using h
  · simp only [if_neg hd]
    by_cases hdone : line.drop 6 = "[DONE]".data
    · simp only [if_pos hdone]
      have h1 := flush_pres false st ils h
      have h2 := flushActive_pres (flushToolCallBuffers false st).1
        (ils ++ inlineIdentsOf (flushToolCallBuffers false st).2.1) h1
      rw [inlineIdentsOf_append, ← List.append_assoc]
      exact h2
    · simp only [if_neg hdone]
      cases hp : jsonParse (line.drop 6) with
      | none => simpa [inlineIdentsOf] using h
      | some j => exact processDelta_pres j st ils h

/-- Processing a batch of lines preserves the ledger invariant. -/
theorem processLines_pres : ∀ (ls : List Str) (st : CoreState) (ils : List InlineIdent),
    InlineInv st ils →
    InlineInv (processLines ls st).1 (ils ++ inlineIdentsOf (processLines ls st).2) := by
  intro ls
  induction ls with
  | nil => intro st ils h; simpa [processLines, inlineIdentsOf] using h
  | cons l rest ih =>
    intro st ils h
    simp only [processLines]
    rw [inlineIdentsOf_append, ← List.append_assoc]
    exact ih (processLine l st).1 (ils ++ inlineIdentsOf (processLine l st).2)
      (processLine_pres l st ils h)

/-- Feeding one chunk preserves the ledger invariant. -/
theorem feedChunk_pres (s : SessionState) (chunk : Str) (ils : List InlineIdent)
    (h : InlineInv s.core ils) :
    InlineInv (feedChunk s chunk).1.core (ils ++ inlineIdentsOf (feedChunk s chunk).2) := by
  unfold feedChunk
  exact processLines_pres (breakLines (s.lineBuffer ++ chunk)).1 s.core ils h

/-- Feeding any chunk list preserves the ledger invariant. -/
theorem feedAll_pres : ∀ (cs : List Str) (s : SessionState) (ils : List InlineIdent),
    InlineInv s.core ils →
    InlineInv (feedAll s cs).1.core (ils ++ inlineIdentsOf (feedAll s cs).2) := by
  intro cs
  induction cs with
  | nil => intro s ils h; simpa [feedAll, inlineIdentsOf] using h
  | cons c rest ih =>
    intro s ils h
    simp only [feedAll]
    rw [inlineIdentsOf_append, ← List.append_assoc]
    exact ih (feedChunk s c).1 (ils ++ inlineIdentsOf (feedChunk s c).2)
      (feedChunk_pres s c ils h)

/-- C6 (amended).  Within the inline text path no identity is reported twice
in a session: across every stream the inline identities reported by
`runSession` are pairwise distinct; an indexed inline call whose
`(name, index)` key is already in the identity ledger is suppressed - for
any argument text, parsed or not; a non-indexed inline call whose
`(name, canonical JSON)` key is already in the key ledger is suppressed; and
a structured emission records its `(name, canonical JSON)` key in the key
ledger (which is why later equivalent non-indexed inline calls are
suppressed) while, per `claim6_counterexample`, never consulting either
ledger itself. -/
theorem claim6_amended :
    (∀ (chunks : List Str) (cancelAt : Option Nat),
        (inlineIdentsOf (runSession chunks cancelAt).2).Nodup)
  ∧ (∀ (st : CoreState) (call : ActiveTextTool) (argText : Str) (i : Nat),
        call.index = some i →
        mkIdKey (call.name.getD unknownTool) i ∈ st.emittedTextToolCallIds →
        emitTextToolCallIfValid st call argText = (false, st, []))
  ∧ (∀ (st : CoreState) (call : ActiveTextTool) (argText : Str) (fs : List (Str × JVal)),
        call.index = none →
        tryParseJSONObject argText = some fs →
        mkCanonKey (call.name.getD unknownTool)
            (canonGo (argText.length + 1) (JVal.jobj fs)) ∈ st.emittedTextToolCallKeys →
        emitTextToolCallIfValid st call argText = (false, st, []))
  ∧ (∀ (idx : Nat) (st : CoreState) (buf : ToolCallBuffer) (fs : List (Str × JVal)),
        mapGet st.toolCallBuffers idx = some buf →
        buf.name.getD [] ≠ [] →
        tryParseJSONObject buf.args = some fs →
        mkCanonKey (buf.name.getD [])
            (canonGo (buf.args.length + 1) (JVal.jobj fs))
          ∈ (tryEmitBufferedToolCall idx st).1.emittedTextToolCallKeys) := by
  refine ⟨?_, ?_, ?_, ?_⟩
  · intro chunks cancelAt
    have h0 : InlineInv initCore ([] : List InlineIdent) :=
      ⟨fun il hil => absurd hil (List.not_mem_nil il), List.nodup_nil⟩
    have h := (feedAll_pres (match cancelAt with | none => chunks | some k => chunks.take k)
      ⟨initCore, []⟩ [] h0).2
    simp only [List.nil_append] at h
    simpa only [runSession] using h
  · intro st call argText i hix hmem
    cases hp : tryParseJSONObject argText with
    | none => simp [emitTextToolCallIfValid, hp]
    | some fs => simp [emitTextToolCallIfValid, hp, hix, hmem]
  · intro st call argText fs hix hp hmem
    simp [emitTextToolCallIfValid, hp, hix, hmem]
  · intro idx st buf fs hget hname hp
    simp only [tryEmitBufferedToolCall, hget, hp, if_neg hname]
    exact mem_setAdd_self st.emittedTextToolCallKeys _

/-- Identity-ledger state holding `(search, 0)`, an active inline call for
`search` at index 0, key-ledger state holding the canonical `q = 1` key, and
a buffer state holding a complete structured `search` entry: concrete
instances for the amended-claim conjuncts. -/
def stIdxLedger : CoreState :=
  { initCore with emittedTextToolCallIds := [mkIdKey ("search".data) 0] }

/-- Active inline call `search:0` (no argument text retained). -/
def callIdx : ActiveTextTool := ⟨some ("search".data), some 0, [], false⟩

/-- Key-ledger state holding the canonical key of `search` with `q = 1`. -/
def stKeyLedger : CoreState :=
  { initCore with emittedTextToolCallKeys :=
      [mkCanonKey ("search".data) (canonGo 9 (JVal.jobj qFields))] }

/-- Active inline call `search` with no index. -/
def callKey : ActiveTextTool := ⟨some ("search".data), none, [], false⟩

/-- Buffer state with a complete structured `search` entry at index 0. -/
def stBufWit : CoreState :=
  { initCore with toolCallBuffers :=
      [(0, ⟨some ("s1".data), some ("search".data), "\x7b\"q\":1\x7d".data⟩)] }

theorem claim6_witness :
    (inlineIdentsOf (runSession [frameInlineSearch, frameDone] none).2).Nodup
  ∧ emitTextToolCallIfValid stIdxLedger callIdx ("\x7b\"q\":2\x7d".data) =
      (false, stIdxLedger, [])
  ∧ emitTextToolCallIfValid stKeyLedger callKey ("\x7b\"q\":1\x7d".data) =
      (false, stKeyLedger, [])
  ∧ mkCanonKey ("search".data) (canonGo 9 (JVal.jobj qFields))
      ∈ (tryEmitBufferedToolCall 0 stBufWit).1.emittedTextToolCallKeys :=
  ⟨claim6_amended.1 [frameInlineSearch, frameDone] none,
   claim6_amended.2.1 stIdxLedger callIdx ("\x7b\"q\":2\x7d".data) 0 rfl
     (List.mem_cons_self _ _),
   claim6_amended.2.2.1 stKeyLedger callKey ("\x7b\"q\":1\x7d".data) qFields rfl rfl
     (List.mem_cons_self _ _),
   claim6_amended.2.2.2 0 stBufWit ⟨some ("s1".data), some ("search".data),
     "\x7b\"q\":1\x7d".data⟩ qFields rfl (by decide) rfl⟩
